import Mathlib

/- Shallow embedding of the mcp-gateway-graph-demo sources (Python).
   Python JSON-like values are modelled by the `Json` inductive; Python
   dictionaries are insertion-ordered association lists with unique keys
   (first binding wins on lookup, assignment replaces in place or appends,
   exactly as a Python dict behaves).  JSON numbers are modelled as `Int`:
   no claim inspects fractional number payloads inside schema documents. -/

inductive Json : Type where
  | null : Json
  | bool (b : Bool) : Json
  | num (n : Int) : Json
  | str (s : String) : Json
  | arr (elems : List Json) : Json
  | obj (fields : List (String × Json)) : Json
  deriving Repr

namespace Json

mutual

/- Structural equality test (deriving DecidableEq does not support this
   nested inductive, so the decision procedure is written by hand). -/
def jeq : Json → Json → Bool
  | .null, .null => true
  | .bool a, .bool b => a == b
  | .num a, .num b => a == b
  | .str a, .str b => a == b
  | .arr a, .arr b => jeqList a b
  | .obj a, .obj b => jeqFields a b
  | _, _ => false

def jeqList : List Json → List Json → Bool
  | [], [] => true
  | x :: xs, y :: ys => jeq x y && jeqList xs ys
  | _, _ => false

def jeqFields : List (String × Json) → List (String × Json) → Bool
  | [], [] => true
  | (k1, v1) :: xs, (k2, v2) :: ys => k1 == k2 && jeq v1 v2 && jeqFields xs ys
  | _, _ => false

end

mutual

theorem jeq_iff : ∀ (a b : Json), jeq a b = true ↔ a = b
  | .null, .null => by simp [jeq]
  | .bool _, .bool _ => by simp [jeq]
  | .num _, .num _ => by simp [jeq]
  | .str _, .str _ => by simp [jeq]
  | .arr a, .arr b => by simp [jeq, jeqList_iff a b]
  | .obj a, .obj b => by simp [jeq, jeqFields_iff a b]
  | .null, .bool _ | .null, .num _ | .null, .str _ | .null, .arr _
  | .null, .obj _ | .bool _, .null | .bool _, .num _ | .bool _, .str _
  | .bool _, .arr _ | .bool _, .obj _ | .num _, .null | .num _, .bool _
  | .num _, .str _ | .num _, .arr _ | .num _, .obj _ | .str _, .null
  | .str _, .bool _ | .str _, .num _ | .str _, .arr _ | .str _, .obj _
  | .arr _, .null | .arr _, .bool _ | .arr _, .num _ | .arr _, .str _
  | .arr _, .obj _ | .obj _, .null | .obj _, .bool _ | .obj _, .num _
  | .obj _, .str _ | .obj _, .arr _ => by simp [jeq]

theorem jeqList_iff : ∀ (a b : List Json), jeqList a b = true ↔ a = b
  | [], [] => by simp [jeqList]
  | x :: xs, y :: ys => by
      simp [jeqList, jeq_iff x y, jeqList_iff xs ys]
  | [], _ :: _ => by simp [jeqList]
  | _ :: _, [] => by simp [jeqList]

theorem jeqFields_iff :
    ∀ (a b : List (String × Json)), jeqFields a b = true ↔ a = b
  | [], [] => by simp [jeqFields]
  | (k1, v1) :: xs, (k2, v2) :: ys => by
      simp [jeqFields, jeq_iff v1 v2, jeqFields_iff xs ys, and_assoc]
  | [], _ :: _ => by simp [jeqFields]
  | _ :: _, [] => by simp [jeqFields]

end

instance : DecidableEq Json := fun a b =>
  if h : jeq a b = true then .isTrue ((jeq_iff a b).mp h)
  else .isFalse (fun he => h ((jeq_iff a b).mpr he))


/- Python d.get(k) on a dict: the value of the first binding of k, if any. -/
def objGet (l : List (String × Json)) (k : String) : Option Json :=
  (l.find? (fun kv => kv.1 == k)).map (fun kv => kv.2)

/- Python d[k] = v: replace the binding in place if present, else append
   (Python dicts preserve insertion order and append new keys at the end). -/
def objSet (l : List (String × Json)) (k : String) (v : Json) :
    List (String × Json) :=
  if (l.find? (fun kv => kv.1 == k)).isSome then
    l.map (fun kv => if kv.1 == k then (kv.1, v) else kv)
  else l ++ [(k, v)]

/- Lookup through a Json value: `j.get k` is Python `j.get(k)` when j is a
   dict, and none otherwise. -/
def get (j : Json) (k : String) : Option Json :=
  match j with
  | obj l => objGet l k
  | _ => none

/- Python truthiness of a JSON-like value (bool(x)). -/
def truthy : Json → Bool
  | null => false
  | bool b => b
  | num n => n != 0
  | str s => s != ""
  | arr l => !l.isEmpty
  | obj l => !l.isEmpty

/- Whether the value is a dict carrying the given key. -/
def hasKey (j : Json) (k : String) : Bool :=
  (j.get k).isSome

end Json

/- The MD5 digest (RFC 1321), used by normalize_and_dedup_node via Python
   hashlib.md5(unique_key.encode()).hexdigest().  Words are naturals taken
   modulo 2 ^ 32; messages are byte lists; strings are UTF-8 encoded. -/

namespace MD5

/- UTF-8 encoding of one character (Python str.encode()). -/
def encodeChar (c : Char) : List Nat :=
  let n := c.toNat
  if n < 0x80 then [n]
  else if n < 0x800 then
    [0xC0 + n / 0x40, 0x80 + n % 0x40]
  else if n < 0x10000 then
    [0xE0 + n / 0x1000, 0x80 + n / 0x40 % 0x40, 0x80 + n % 0x40]
  else
    [0xF0 + n / 0x40000, 0x80 + n / 0x1000 % 0x40,
     0x80 + n / 0x40 % 0x40, 0x80 + n % 0x40]

def utf8Bytes (s : String) : List Nat :=
  s.data.flatMap encodeChar

/- Per-round shift amounts of RFC 1321. -/
def shifts : List Nat :=
  [7, 12, 17, 22, 7, 12, 17, 22, 7, 12, 17, 22, 7, 12, 17, 22,
   5, 9, 14, 20, 5, 9, 14, 20, 5, 9, 14, 20, 5, 9, 14, 20,
   4, 11, 16, 23, 4, 11, 16, 23, 4, 11, 16, 23, 4, 11, 16, 23,
   6, 10, 15, 21, 6, 10, 15, 21, 6, 10, 15, 21, 6, 10, 15, 21]

/- Sine-derived round constants of RFC 1321. -/
def consts : List Nat :=
  [0xd76aa478, 0xe8c7b756, 0x242070db, 0xc1bdceee,
   0xf57c0faf, 0x4787c62a, 0xa8304613, 0xfd469501,
   0x698098d8, 0x8b44f7af, 0xffff5bb1, 0x895cd7be,
   0x6b901122, 0xfd987193, 0xa679438e, 0x49b40821,
   0xf61e2562, 0xc040b340, 0x265e5a51, 0xe9b6c7aa,
   0xd62f105d, 0x02441453, 0xd8a1e681, 0xe7d3fbc8,
   0x21e1cde6, 0xc33707d6, 0xf4d50d87, 0x455a14ed,
   0xa9e3e905, 0xfcefa3f8, 0x676f02d9, 0x8d2a4c8a,
   0xfffa3942, 0x8771f681, 0x6d9d6122, 0xfde5380c,
   0xa4beea44, 0x4bdecfa9, 0xf6bb4b60, 0xbebfbc70,
   0x289b7ec6, 0xeaa127fa, 0xd4ef3085, 0x04881d05,
   0xd9d4d039, 0xe6db99e5, 0x1fa27cf8, 0xc4ac5665,
   0xf4292244, 0x432aff97, 0xab9423a7, 0xfc93a039,
   0x655b59c3, 0x8f0ccc92, 0xffeff47d, 0x85845dd1,
   0x6fa87e4f, 0xfe2ce6e0, 0xa3014314, 0x4e0811a1,
   0xf7537e82, 0xbd3af235, 0x2ad7d2bb, 0xeb86d391]

def M32 : Nat := 4294967296

def rotl (x c : Nat) : Nat :=
  ((x <<< c) % M32) ||| (x >>> (32 - c))

def bnot (x : Nat) : Nat := x ^^^ 0xffffffff

/- Padding: append 0x80, zero-fill to 56 mod 64, then the original length
   in bits as eight little-endian bytes. -/
def pad (msg : List Nat) : List Nat :=
  let len := msg.length
  let zeros := (64 + 56 - (len + 1) % 64) % 64
  msg ++ [0x80] ++ List.replicate zeros 0 ++
    ((List.range 8).map (fun i => (8 * len) >>> (8 * i) % 256))

/- Little-endian 32-bit word j of a 64-byte block. -/
def word (block : List Nat) (j : Nat) : Nat :=
  block.getD (4 * j) 0 + 256 * block.getD (4 * j + 1) 0 +
    65536 * block.getD (4 * j + 2) 0 + 16777216 * block.getD (4 * j + 3) 0

/- One of the 64 rounds on the running state (a, b, c, d). -/
def round (block : List Nat) (st : Nat × Nat × Nat × Nat) (i : Nat) :
    Nat × Nat × Nat × Nat :=
  let (a, b, c, d) := st
  let f :=
    if i < 16 then (b &&& c) ||| (bnot b &&& d)
    else if i < 32 then (d &&& b) ||| (bnot d &&& c)
    else if i < 48 then b ^^^ c ^^^ d
    else c ^^^ (b ||| bnot d)
  let g :=
    if i < 16 then i
    else if i < 32 then (5 * i + 1) % 16
    else if i < 48 then (3 * i + 5) % 16
    else (7 * i) % 16
  let tmp := (f + a + consts.getD i 0 + word block g) % M32
  (d, (b + rotl tmp (shifts.getD i 0)) % M32, b, c)

def processBlock (st : Nat × Nat × Nat × Nat) (block : List Nat) :
    Nat × Nat × Nat × Nat :=
  let (a0, b0, c0, d0) := st
  let (a, b, c, d) := (List.range 64).foldl (round block) (a0, b0, c0, d0)
  ((a0 + a) % M32, (b0 + b) % M32, (c0 + c) % M32, (d0 + d) % M32)

def digestWords (msg : List Nat) : Nat × Nat × Nat × Nat :=
  let padded := pad msg
  (List.range (padded.length / 64)).foldl
    (fun st i => processBlock st ((padded.drop (64 * i)).take 64))
    (0x67452301, 0xefcdab89, 0x98badcfe, 0x10325476)

def hexDigit (n : Nat) : Char :=
  "0123456789abcdef".data.getD n '0'

/- Two lowercase hex digits of one byte. -/
def byteHex (b : Nat) : List Char :=
  [hexDigit (b / 16 % 16), hexDigit (b % 16)]

/- Hex digest: the four state words serialized little-endian, byte by byte. -/
def wordHex (w : Nat) : List Char :=
  byteHex (w % 256) ++ byteHex (w >>> 8 % 256) ++ byteHex (w >>> 16 % 256) ++
    byteHex (w >>> 24 % 256)

def digestBytesHex (msg : List Nat) : String :=
  let (a, b, c, d) := digestWords msg
  String.mk (wordHex a ++ wordHex b ++ wordHex c ++ wordHex d)

end MD5

/- Python hashlib.md5(s.encode()).hexdigest(). -/
def md5Hex (s : String) : String :=
  MD5.digestBytesHex (MD5.utf8Bytes s)

/- RFC 1321 test vectors, checking the digest implementation. -/
theorem md5Hex_empty : md5Hex "" = "d41d8cd98f00b204e9800998ecf8427e" := by
  decide

theorem md5Hex_abc : md5Hex "abc" = "900150983cd24fb0d6963f7d28e17f72" := by
  decide

/- Python whitespace, as relevant to str.strip() and the regex class \s on
   the ASCII range (space, tab, newline, carriage return, vertical tab,
   form feed).  All paths handled by the pipeline are ASCII. -/
def isPySpace (c : Char) : Bool :=
  c == ' ' || c == '\t' || c == '\n' || c == '\r' ||
    c == '\x0b' || c == '\x0c'

def dropTrailingSpace (l : List Char) : List Char :=
  (l.reverse.dropWhile isPySpace).reverse

def pyStripList (l : List Char) : List Char :=
  dropTrailingSpace (l.dropWhile isPySpace)

/- Python s.strip(): remove leading and trailing whitespace. -/
def pyStrip (s : String) : String :=
  String.mk (pyStripList s.data)

/- Python path.split(chr 63)[0]: everything before the first query mark. -/
def beforeQuery (l : List Char) : List Char :=
  l.takeWhile (fun c => c != '?')

/- Python re.sub(whitespace-class, empty, s): drop all whitespace. -/
def stripAllSpace (l : List Char) : List Char :=
  l.filter (fun c => !isPySpace c)

/- Canonicalization applied to a path inside normalize_and_dedup_node
   after the strip: drop the query string, then drop all whitespace. -/
def canonAfterStrip (p : String) : String :=
  String.mk (stripAllSpace (beforeQuery p.data))

/- Python str.upper() on the ASCII range (every string the pipeline
   uppercases is an ASCII HTTP method name). -/
def pyUpperChar (c : Char) : Char :=
  if 97 ≤ c.toNat && c.toNat ≤ 122 then Char.ofNat (c.toNat - 32) else c

def pyUpper (s : String) : String :=
  String.mk (s.data.map pyUpperChar)

/- Python s[:n] slicing (the id is hexdigest()[:12]). -/
def strTake (s : String) (n : Nat) : String :=
  String.mk (s.data.take n)

/- Python s.split(sep) for a one-character separator: empty pieces are
   kept, and the empty string splits to one empty piece. -/
def splitChar (sep : Char) : List Char → List (List Char)
  | [] => [[]]
  | c :: rest =>
    match splitChar sep rest with
    | [] => [[c]]
    | h :: t => if c == sep then [] :: h :: t else (c :: h) :: t

def pySplit (s : String) (sep : Char) : List String :=
  (splitChar sep s.data).map String.mk

/- Python s.startswith(c) for a one-character prefix. -/
def pyStartsWith (s : String) (c : Char) : Bool :=
  match s.data with
  | [] => false
  | h :: _ => h == c

/- A raw endpoint record (discovery/nodes.py, discovery/helpers.py).
   Raw endpoints are Python dicts whose producers may omit keys, hence the
   Option fields; normalize_and_dedup_node reads them through dict.get
   with the defaults reproduced below. -/
structure RawEndpoint where
  method : Option String := none
  path : Option String := none
  server : Option String := none
  description : Option String := none
  parameters : Option (List Json) := none
  requestBody : Option Json := none
  source : Option String := none
  deriving DecidableEq, Repr

/- A normalized endpoint as built by normalize_and_dedup_node. -/
structure NormalizedEndpoint where
  id : String
  method : String
  path : String
  server : String
  description : String
  parameters : List Json
  requestBody : Json
  source : String
  deriving DecidableEq, Repr

/- ep.get(str method, str GET).upper() in normalize_and_dedup_node. -/
def rawMethod (ep : RawEndpoint) : String :=
  pyUpper (ep.method.getD "GET")

/- The stripped path ep.get(str path, empty).strip(). -/
def strippedPath (ep : RawEndpoint) : String :=
  pyStrip (ep.path.getD "")

/- The unique key of normalize_and_dedup_node (line 213 of
   discovery/nodes.py): server_url, uppercased method and canonical path
   joined by a vertical bar. -/
def dedupKey (server_url : String) (ep : RawEndpoint) : String :=
  server_url ++ "|" ++ rawMethod ep ++ "|" ++ canonAfterStrip (strippedPath ep)

/- The normalized endpoint built for a kept raw endpoint (lines 219-228 of
   discovery/nodes.py). -/
def mkNormalized (server_url : String) (ep : RawEndpoint) :
    NormalizedEndpoint where
  id := strTake (md5Hex (dedupKey server_url ep)) 12
  method := rawMethod ep
  path := canonAfterStrip (strippedPath ep)
  server := server_url
  description := pyStrip (ep.description.getD "")
  parameters := ep.parameters.getD []
  requestBody := ep.requestBody.getD (Json.obj [])
  source := ep.source.getD "unknown"

/- The loop of normalize_and_dedup_node, with the mutable set of seen keys
   made into an explicit accumulator (only membership is ever used). -/
def normalizeGo (server_url : String) :
    List RawEndpoint → List String → List NormalizedEndpoint
  | [], _ => []
  | ep :: rest, seen =>
    if strippedPath ep = "" then normalizeGo server_url rest seen
    else
      let key := dedupKey server_url ep
      if key ∈ seen then normalizeGo server_url rest seen
      else mkNormalized server_url ep :: normalizeGo server_url rest (key :: seen)

/- Core of normalize_and_dedup_node (discovery/nodes.py, lines 183-235):
   the endpoints_normalized list computed from the raw endpoint list and
   the pass-level input server_url. -/
def normalize_and_dedup (eps : List RawEndpoint) (server_url : String) :
    List NormalizedEndpoint :=
  normalizeGo server_url eps []

/- calculate_confidence (discovery/helpers.py, lines 187-207).  Python
   floats are modelled as exact rationals; every constant below is exactly
   representable in the model and the clamped sum never exceeds 1. -/
def calculate_confidence (ep : NormalizedEndpoint) : Rat :=
  let score : Rat := 0.5
  let score := if ep.description != "" then score + 0.2 else score
  let score := if ep.parameters.isEmpty then score else score + 0.15
  let score := if ep.source == "openapi" then score + 0.15 else score
  min score 1

/- String payload of a Json value, with a default; used where the Python
   code reads a dict value straight into a string position. -/
def jStrD (j : Option Json) (d : String) : String :=
  match j with
  | some (Json.str s) => s
  | _ => d

/- The standard HTTP methods recognised by extract_openapi_endpoints. -/
def openapiMethods : List String :=
  ["GET", "POST", "PUT", "DELETE", "PATCH", "HEAD", "OPTIONS"]

/- The server URL taken from the servers section of an OpenAPI document
   (lines 34-35 of discovery/helpers.py): the url of the first entry, with
   empty-string defaults at each step. -/
def openapiServerUrl (spec : Json) : String :=
  match (spec.get "servers").getD
      (Json.arr [Json.obj [("url", Json.str "")]]) with
  | Json.arr (h :: _) => jStrD (h.get "url") ""
  | _ => ""

/- The paths mapping of an OpenAPI document, spec.get(paths-key, empty). -/
def openapiPaths (spec : Json) : List (String × Json) :=
  match (spec.get "paths").getD (Json.obj []) with
  | Json.obj l => l
  | _ => []

/- The raw endpoint built for one path and one method entry, when the
   method is one of the standard HTTP methods (lines 38-60 of
   discovery/helpers.py). -/
def openapiEntry (server_url path : String) (md : String × Json) :
    Option RawEndpoint :=
  if pyUpper md.1 ∈ openapiMethods then
    some { method := some (pyUpper md.1)
           path := some path
           server := some server_url
           description := some (jStrD
             ((md.2.get "summary").orElse
               (fun _ => md.2.get "description")) "")
           parameters := some
             (match md.2.get "parameters" with
              | some (Json.arr l) => l
              | _ => [])
           requestBody := some ((md.2.get "requestBody").getD (Json.obj []))
           source := some "openapi" }
  else none

/- The per-path methods dict, iterated by methods.items() in the source. -/
def openapiMethodItems (v : Json) : List (String × Json) :=
  match v with
  | Json.obj l => l
  | _ => []

def extractFromPaths (server_url : String)
    (paths : List (String × Json)) : List RawEndpoint :=
  paths.flatMap (fun pm =>
    (openapiMethodItems pm.2).filterMap (openapiEntry server_url pm.1))

/- extract_openapi_endpoints (discovery/helpers.py, lines 24-62).  Inputs
   whose servers entry or operation details are not of the shapes the
   Python code indexes into would raise there; the embedding reads them
   through defaulting accessors instead (such inputs abort the Python
   pipeline and decide no claim). -/
def extract_openapi_endpoints (spec : Json) : List RawEndpoint :=
  extractFromPaths (openapiServerUrl spec) (openapiPaths spec)


/- Spec-side description of first-wins deduplication: keep the first
   element carrying each key, discard every later element with the same
   key, preserve encounter order. -/
def specFirstWins {α : Type} (key : α → String) : List α → List α
  | [] => []
  | a :: rest => a :: specFirstWins key (rest.filter (fun b => key b != key a))
termination_by l => l.length
decreasing_by
  simpa using Nat.lt_succ_of_le (List.length_filter_le _ _)

/- Canonical path exactly as the claims word it: everything from the first
   query mark dropped, then all whitespace removed (no prior strip). -/
def claimCanonPath (p : String) : String :=
  String.mk (stripAllSpace (beforeQuery p.data))

/- Dedup key as the claims word it, built from the raw path directly. -/
def claimKey (server_url : String) (ep : RawEndpoint) : String :=
  server_url ++ "|" ++ rawMethod ep ++ "|" ++ claimCanonPath (ep.path.getD "")

theorem isPySpace_ne_query {c : Char} (h : isPySpace c = true) : c ≠ '?' := by
  intro hc
  subst hc
  exact absurd h (by decide)

theorem stripAll_beforeQ_dropWhile (l : List Char) :
    stripAllSpace (beforeQuery (l.dropWhile isPySpace)) =
      stripAllSpace (beforeQuery l) := by
  induction l with
  | nil => rfl
  | cons c t ih =>
    by_cases hc : isPySpace c
    · have hq : (c != '?') = true := by
        simpa using isPySpace_ne_query hc
      simp only [List.dropWhile_cons, hc, if_true, beforeQuery,
        List.takeWhile_cons, hq, stripAllSpace, List.filter_cons, hc]
      simpa [beforeQuery, stripAllSpace] using ih
    · simp [List.dropWhile_cons, hc]

theorem beforeQuery_of_all_space {t : List Char}
    (h : ∀ c ∈ t, isPySpace c = true) : beforeQuery t = t := by
  induction t with
  | nil => rfl
  | cons c r ih =>
    have hq : (c != '?') = true := by
      simpa using isPySpace_ne_query (h c (List.mem_cons_self c r))
    simp only [beforeQuery, List.takeWhile_cons, hq, if_true]
    have := ih (fun x hx => h x (List.mem_cons_of_mem c hx))
    simpa [beforeQuery] using this

theorem stripAll_of_all_space {t : List Char}
    (h : ∀ c ∈ t, isPySpace c = true) : stripAllSpace t = [] := by
  simp only [stripAllSpace, List.filter_eq_nil_iff]
  intro c hc
  simp [h c hc]

theorem stripAll_beforeQ_append_space (core : List Char) {t : List Char}
    (h : ∀ c ∈ t, isPySpace c = true) :
    stripAllSpace (beforeQuery (core ++ t)) = stripAllSpace (beforeQuery core) := by
  induction core with
  | nil =>
    rw [List.nil_append, beforeQuery_of_all_space h, stripAll_of_all_space h]
    rfl
  | cons c r ih =>
    by_cases hq : c = '?'
    · subst hq
      simp [beforeQuery]
    · have hq2 : (c != '?') = true := by simpa using hq
      simp only [List.cons_append, beforeQuery, List.takeWhile_cons, hq2,
        if_true, stripAllSpace, List.filter_cons]
      by_cases hc : isPySpace c <;>
        simpa [beforeQuery, stripAllSpace, hc] using ih

theorem stripAll_beforeQ_dropTrailing (m : List Char) :
    stripAllSpace (beforeQuery (dropTrailingSpace m)) =
      stripAllSpace (beforeQuery m) := by
  have hdecomp :
      dropTrailingSpace m ++ (m.reverse.takeWhile isPySpace).reverse = m := by
    rw [dropTrailingSpace, ← List.reverse_append,
      List.takeWhile_append_dropWhile, List.reverse_reverse]
  conv_rhs => rw [← hdecomp]
  exact (stripAll_beforeQ_append_space _
    (fun c hc => List.mem_takeWhile_imp (List.mem_reverse.mp hc))).symm

/- Stripping before canonicalization does not change the canonical path:
   the canonical path of the claims equals the one the code computes. -/
theorem canonAfterStrip_pyStrip (s : String) :
    canonAfterStrip (pyStrip s) = claimCanonPath s := by
  show String.mk (stripAllSpace (beforeQuery (pyStripList s.data))) = _
  rw [pyStripList, stripAll_beforeQ_dropTrailing, stripAll_beforeQ_dropWhile]
  rfl

/- The code's dedup key coincides with the claims' dedup key. -/
theorem dedupKey_eq_claimKey (server_url : String) (ep : RawEndpoint) :
    dedupKey server_url ep = claimKey server_url ep := by
  rw [dedupKey, claimKey, strippedPath, canonAfterStrip_pyStrip]

/- Whether a raw endpoint survives the empty-after-strip path test. -/
def keepsPath (ep : RawEndpoint) : Bool :=
  strippedPath ep != ""

theorem filter_seen_cons (K : RawEndpoint → String) (seen : List String)
    (a : RawEndpoint) (l : List RawEndpoint) :
    (l.filter (fun b => keepsPath b && decide (K b ∉ seen))).filter
        (fun b => K b != K a) =
      l.filter (fun b => keepsPath b && decide (K b ∉ (K a :: seen))) := by
  rw [List.filter_filter]
  apply List.filter_congr
  intro b _
  by_cases h1 : K b = K a <;> by_cases h2 : K b ∈ seen <;>
    simp [h1, h2, List.mem_cons]

theorem specFirstWins_nil {α : Type} (K : α → String) :
    specFirstWins K [] = [] := by
  rw [specFirstWins]

theorem specFirstWins_cons {α : Type} (K : α → String) (a : α) (l : List α) :
    specFirstWins K (a :: l) =
      a :: specFirstWins K (l.filter (fun b => K b != K a)) := by
  rw [specFirstWins]

theorem normalizeGo_spec (s : String) (eps : List RawEndpoint)
    (seen : List String) :
    normalizeGo s eps seen =
      (specFirstWins (claimKey s)
        (eps.filter (fun ep => keepsPath ep && decide (claimKey s ep ∉ seen)))).map
        (mkNormalized s) := by
  induction eps generalizing seen with
  | nil => simp [normalizeGo, specFirstWins_nil]
  | cons ep rest ih =>
    rw [normalizeGo]
    by_cases hp : strippedPath ep = ""
    · rw [if_pos hp, ih]
      have hkp : (keepsPath ep && decide (claimKey s ep ∉ seen)) = false := by
        simp [keepsPath, hp]
      rw [List.filter_cons, hkp]
      simp only [Bool.false_eq_true, if_false]
    · rw [if_neg hp]
      by_cases hk : dedupKey s ep ∈ seen
      · rw [if_pos hk, ih]
        have hkp : (keepsPath ep && decide (claimKey s ep ∉ seen)) = false := by
          rw [← dedupKey_eq_claimKey]
          simp [hk]
        rw [List.filter_cons, hkp]
        simp only [Bool.false_eq_true, if_false]
      · rw [if_neg hk, ih]
        have hkeep : (keepsPath ep && decide (claimKey s ep ∉ seen)) = true := by
          rw [← dedupKey_eq_claimKey]
          simp [hk, keepsPath, hp]
        rw [List.filter_cons, hkeep]
        simp only [if_true]
        rw [specFirstWins_cons, List.map_cons]
        rw [dedupKey_eq_claimKey, filter_seen_cons]

theorem mem_specFirstWins {α : Type} (K : α → String) :
    ∀ (l : List α) (b : α), b ∈ specFirstWins K l → b ∈ l
  | [], b => by simp [specFirstWins_nil]
  | a :: rest, b => by
    rw [specFirstWins_cons]
    intro hb
    rcases List.mem_cons.mp hb with h | h
    · exact h ▸ List.mem_cons_self a rest
    · exact List.mem_cons_of_mem a
        (List.mem_of_mem_filter (mem_specFirstWins K _ b h))
termination_by l _ => l.length
decreasing_by
  simpa using Nat.lt_succ_of_le (List.length_filter_le _ _)

theorem specFirstWins_pairwise {α : Type} (K : α → String) :
    ∀ l : List α, (specFirstWins K l).Pairwise (fun x y => K x ≠ K y)
  | [] => by simp [specFirstWins_nil]
  | a :: rest => by
    rw [specFirstWins_cons]
    refine List.Pairwise.cons ?_ (specFirstWins_pairwise K _)
    intro b hb
    have hbf := mem_specFirstWins K _ b hb
    have hne := List.of_mem_filter hbf
    simp only [bne_iff_ne, ne_eq] at hne
    exact fun he => hne he.symm
termination_by l => l.length
decreasing_by
  simpa using Nat.lt_succ_of_le (List.length_filter_le _ _)

/-- C1: normalization keeps exactly the first raw endpoint for each dedup
key (server_url, vertical bar, uppercased method, vertical bar, canonical
path, where the canonical path is the raw path with everything from the
first query mark dropped and all whitespace removed), discards later
entries with the same key, skips entries whose path is empty after
trimming, and emits the kept endpoints in input encounter order; hence no
two output endpoints share the same (server, method, path) triple. -/
theorem normalize_first_wins_unique (eps : List RawEndpoint)
    (server_url : String) :
    normalize_and_dedup eps server_url =
      (specFirstWins (claimKey server_url)
        (eps.filter keepsPath)).map (mkNormalized server_url) ∧
    List.Pairwise
      (fun e1 e2 : NormalizedEndpoint =>
        ¬(e1.server = e2.server ∧ e1.method = e2.method ∧ e1.path = e2.path))
      (normalize_and_dedup eps server_url) := by
  have hmain : normalize_and_dedup eps server_url =
      (specFirstWins (claimKey server_url)
        (eps.filter keepsPath)).map (mkNormalized server_url) := by
    rw [normalize_and_dedup, normalizeGo_spec]
    have hfc : eps.filter
        (fun ep => keepsPath ep && decide (claimKey server_url ep ∉ ([] : List String))) =
        eps.filter keepsPath := by
      apply List.filter_congr
      intro b _
      simp
    rw [hfc]
  refine ⟨hmain, ?_⟩
  rw [hmain]
  refine List.Pairwise.map _ ?_ (specFirstWins_pairwise (claimKey server_url) _)
  intro a b hK htriple
  apply hK
  have hm : rawMethod a = rawMethod b := htriple.2.1
  have hpm := htriple.2.2
  have ha : (mkNormalized server_url a).path = claimCanonPath (a.path.getD "") := by
    show canonAfterStrip (strippedPath a) = _
    rw [strippedPath, canonAfterStrip_pyStrip]
  have hb : (mkNormalized server_url b).path = claimCanonPath (b.path.getD "") := by
    show canonAfterStrip (strippedPath b) = _
    rw [strippedPath, canonAfterStrip_pyStrip]
  rw [ha, hb] at hpm
  rw [claimKey, claimKey, hm, hpm]

theorem mem_normalize_shape {ep : NormalizedEndpoint} {l : List RawEndpoint}
    {s : String} (h : ep ∈ normalize_and_dedup l s) :
    ∃ raw, ep = mkNormalized s raw := by
  rw [normalize_and_dedup, normalizeGo_spec] at h
  obtain ⟨raw, _, rfl⟩ := List.mem_map.mp h
  exact ⟨raw, rfl⟩

/-- C2: every normalized endpoint's id is the first 12 hex characters of the
MD5 digest of the dedup key (server, bar, uppercased method, bar, canonical
path), so the id is a function of that triple alone: equal triples, even
across different normalization runs, give equal ids, and normalizing the
same raw list twice with the same server URL yields identical output. -/
theorem normalize_id_deterministic :
    (∀ (s : String) (l : List RawEndpoint) (ep : NormalizedEndpoint),
      ep ∈ normalize_and_dedup l s →
        ep.id =
          strTake (md5Hex (ep.server ++ "|" ++ ep.method ++ "|" ++ ep.path)) 12) ∧
    (∀ (s1 s2 : String) (l1 l2 : List RawEndpoint)
        (e1 e2 : NormalizedEndpoint),
      e1 ∈ normalize_and_dedup l1 s1 → e2 ∈ normalize_and_dedup l2 s2 →
      e1.server = e2.server → e1.method = e2.method → e1.path = e2.path →
        e1.id = e2.id) ∧
    (∀ (s : String) (l : List RawEndpoint),
      normalize_and_dedup l s = normalize_and_dedup l s) := by
  have hid : ∀ (s : String) (raw : RawEndpoint),
      (mkNormalized s raw).id =
        strTake (md5Hex ((mkNormalized s raw).server ++ "|" ++
          (mkNormalized s raw).method ++ "|" ++
          (mkNormalized s raw).path)) 12 := by
    intro s raw
    have h1 : (mkNormalized s raw).server = s := rfl
    have h2 : (mkNormalized s raw).method = rawMethod raw := rfl
    have h3 : (mkNormalized s raw).path = canonAfterStrip (strippedPath raw) := rfl
    rw [h1, h2, h3]
    show strTake (md5Hex (dedupKey s raw)) 12 = _
    rw [dedupKey]
  refine ⟨?_, ?_, fun s l => rfl⟩
  · intro s l ep h
    obtain ⟨raw, rfl⟩ := mem_normalize_shape h
    exact hid s raw
  · intro s1 s2 l1 l2 e1 e2 h1 h2 hs hm hp
    obtain ⟨r1, rfl⟩ := mem_normalize_shape h1
    obtain ⟨r2, rfl⟩ := mem_normalize_shape h2
    rw [hid s1 r1, hid s2 r2, hs, hm, hp]

/- Concrete inputs used by the witnesses below. -/
def wRaw : RawEndpoint :=
  { method := some "get", path := some " /users?page=1 " }

def wServer : String := "https://api.x.com"

set_option maxRecDepth 8000 in
set_option maxHeartbeats 1000000 in
theorem normalize_id_deterministic_witness :
    mkNormalized wServer wRaw ∈ normalize_and_dedup [wRaw] wServer ∧
    (mkNormalized wServer wRaw).id =
      strTake (md5Hex ((mkNormalized wServer wRaw).server ++ "|" ++
        (mkNormalized wServer wRaw).method ++ "|" ++
        (mkNormalized wServer wRaw).path)) 12 :=
  ⟨by decide, normalize_id_deterministic.1 wServer [wRaw] _ (by decide)⟩

/-- C9: confidence is the base 0.5, plus 0.2 for a non-empty description,
plus 0.15 for a non-empty parameters list, plus 0.15 for source openapi,
clamped to at most 1; it always lies in the closed interval from 0.5 to 1
and depends on no field other than description, parameters and source. -/
theorem calculate_confidence_spec :
    (∀ ep : NormalizedEndpoint,
      calculate_confidence ep =
        min (0.5 + (if ep.description ≠ "" then (0.2 : Rat) else 0) +
          (if ep.parameters ≠ [] then (0.15 : Rat) else 0) +
          (if ep.source = "openapi" then (0.15 : Rat) else 0)) 1) ∧
    (∀ ep : NormalizedEndpoint,
      (0.5 : Rat) ≤ calculate_confidence ep ∧ calculate_confidence ep ≤ 1) ∧
    (∀ e1 e2 : NormalizedEndpoint, e1.description = e2.description →
      e1.parameters = e2.parameters → e1.source = e2.source →
      calculate_confidence e1 = calculate_confidence e2) := by
  have hformula : ∀ ep : NormalizedEndpoint,
      calculate_confidence ep =
        min (0.5 + (if ep.description ≠ "" then (0.2 : Rat) else 0) +
          (if ep.parameters ≠ [] then (0.15 : Rat) else 0) +
          (if ep.source = "openapi" then (0.15 : Rat) else 0)) 1 := by
    intro ep
    by_cases hd : ep.description = "" <;>
      by_cases hp : ep.parameters = [] <;>
        by_cases hs : ep.source = "openapi" <;>
          simp [calculate_confidence, hd, hp, hs, List.isEmpty_iff]
  refine ⟨hformula, ?_, ?_⟩
  · intro ep
    rw [hformula ep]
    constructor
    · apply le_min
      · by_cases hd : ep.description ≠ "" <;>
          by_cases hp : ep.parameters ≠ [] <;>
            by_cases hs : ep.source = "openapi" <;>
              simp [hd, hp, hs] <;> norm_num
      · norm_num
    · exact min_le_right _ _
  · intro e1 e2 h1 h2 h3
    simp only [calculate_confidence, h1, h2, h3]

def wNorm1 : NormalizedEndpoint :=
  { id := "aaa", method := "GET", path := "/users", server := "u"
    description := "d", parameters := [], requestBody := Json.null
    source := "llm" }

def wNorm2 : NormalizedEndpoint :=
  { id := "bbb", method := "POST", path := "/other", server := "v"
    description := "d", parameters := [], requestBody := Json.obj []
    source := "llm" }

theorem calculate_confidence_spec_witness :
    calculate_confidence wNorm1 = calculate_confidence wNorm2 :=
  calculate_confidence_spec.2.2 wNorm1 wNorm2 rfl rfl rfl

/- Dropping the server field of a raw endpoint; two raw endpoints are the
   same except for their declared server iff stripServer equates them. -/
def stripServer (ep : RawEndpoint) : RawEndpoint :=
  { ep with server := none }

theorem stripServer_fields {a b : RawEndpoint}
    (h : stripServer a = stripServer b) :
    a.method = b.method ∧ a.path = b.path ∧ a.description = b.description ∧
      a.parameters = b.parameters ∧ a.requestBody = b.requestBody ∧
      a.source = b.source := by
  have hm := congrArg RawEndpoint.method h
  have hp := congrArg RawEndpoint.path h
  have hd := congrArg RawEndpoint.description h
  have hpar := congrArg RawEndpoint.parameters h
  have hrb := congrArg RawEndpoint.requestBody h
  have hsrc := congrArg RawEndpoint.source h
  exact ⟨hm, hp, hd, hpar, hrb, hsrc⟩

theorem mkNormalized_congr (s : String) {a b : RawEndpoint}
    (h : stripServer a = stripServer b) :
    mkNormalized s a = mkNormalized s b := by
  obtain ⟨hm, hp, hd, hpar, hrb, hsrc⟩ := stripServer_fields h
  simp only [mkNormalized, dedupKey, rawMethod, strippedPath, hm, hp, hd,
    hpar, hrb, hsrc]

theorem dedupKey_congr (s : String) {a b : RawEndpoint}
    (h : stripServer a = stripServer b) : dedupKey s a = dedupKey s b := by
  obtain ⟨hm, hp, _⟩ := stripServer_fields h
  simp only [dedupKey, rawMethod, strippedPath, hm, hp]

theorem normalizeGo_congr (s : String) :
    ∀ (l1 l2 : List RawEndpoint) (seen : List String),
      l1.map stripServer = l2.map stripServer →
      normalizeGo s l1 seen = normalizeGo s l2 seen := by
  intro l1
  induction l1 with
  | nil =>
    intro l2 seen h
    cases l2 with
    | nil => rfl
    | cons b t2 => simp at h
  | cons a t1 ih =>
    intro l2 seen h
    cases l2 with
    | nil => simp at h
    | cons b t2 =>
      simp only [List.map_cons, List.cons.injEq] at h
      obtain ⟨hab, ht⟩ := h
      have hsp : strippedPath a = strippedPath b := by
        obtain ⟨_, hp, _⟩ := stripServer_fields hab
        rw [strippedPath, strippedPath, hp]
      rw [normalizeGo, normalizeGo, hsp, dedupKey_congr s hab,
        mkNormalized_congr s hab]
      by_cases h1 : strippedPath b = ""
      · rw [if_pos h1, if_pos h1]
        exact ih t2 seen ht
      · rw [if_neg h1, if_neg h1]
        by_cases h2 : dedupKey s b ∈ seen
        · rw [if_pos h2, if_pos h2]
          exact ih t2 seen ht
        · rw [if_neg h2, if_neg h2, ih t2 _ ht]

theorem map_strip_openapiEntry (u1 u2 path : String) (md : String × Json) :
    (openapiEntry u1 path md).map stripServer =
      (openapiEntry u2 path md).map stripServer := by
  rw [openapiEntry, openapiEntry]
  by_cases h : pyUpper md.1 ∈ openapiMethods
  · rw [if_pos h, if_pos h]
    rfl
  · rw [if_neg h, if_neg h]

theorem map_strip_filterMapEntries (u1 u2 p : String) :
    ∀ ml : List (String × Json),
      (ml.filterMap (openapiEntry u1 p)).map stripServer =
        (ml.filterMap (openapiEntry u2 p)).map stripServer := by
  intro ml
  induction ml with
  | nil => rfl
  | cons md rest ih =>
    rw [List.filterMap_cons, List.filterMap_cons]
    have h := map_strip_openapiEntry u1 u2 p md
    cases h1 : openapiEntry u1 p md with
    | none =>
      cases h2 : openapiEntry u2 p md with
      | none => exact ih
      | some v => rw [h1, h2] at h; simp at h
    | some v1 =>
      cases h2 : openapiEntry u2 p md with
      | none => rw [h1, h2] at h; simp at h
      | some v2 =>
        rw [h1, h2] at h
        simp at h
        rw [List.map_cons, List.map_cons, ih, h]

theorem map_strip_extractFromPaths (u1 u2 : String) :
    ∀ paths : List (String × Json),
      (extractFromPaths u1 paths).map stripServer =
        (extractFromPaths u2 paths).map stripServer := by
  intro paths
  induction paths with
  | nil => rfl
  | cons pm rest ih =>
    rw [extractFromPaths, List.flatMap_cons, extractFromPaths,
      List.flatMap_cons, List.map_append, List.map_append]
    rw [map_strip_filterMapEntries u1 u2 pm.1]
    congr 1

/-- C10: normalization ignores the raw endpoints' own server fields: every
normalized endpoint's server is the pass-level server_url, raw endpoint
lists that differ only in their server fields normalize identically, and
the server URLs carried out of an OpenAPI document's servers section are
discarded (two documents with equal paths sections normalize identically
whatever their servers sections say). -/
theorem normalize_ignores_raw_server :
    (∀ (l : List RawEndpoint) (s : String) (ep : NormalizedEndpoint),
      ep ∈ normalize_and_dedup l s → ep.server = s) ∧
    (∀ (l1 l2 : List RawEndpoint) (s : String),
      l1.map stripServer = l2.map stripServer →
      normalize_and_dedup l1 s = normalize_and_dedup l2 s) ∧
    (∀ (spec1 spec2 : Json) (s : String),
      spec1.get "paths" = spec2.get "paths" →
      normalize_and_dedup (extract_openapi_endpoints spec1) s =
        normalize_and_dedup (extract_openapi_endpoints spec2) s) := by
  refine ⟨?_, ?_, ?_⟩
  · intro l s ep h
    obtain ⟨raw, rfl⟩ := mem_normalize_shape h
    rfl
  · intro l1 l2 s h
    exact normalizeGo_congr s l1 l2 [] h
  · intro spec1 spec2 s h
    apply normalizeGo_congr s _ _ []
    rw [extract_openapi_endpoints, extract_openapi_endpoints]
    have hp : openapiPaths spec1 = openapiPaths spec2 := by
      rw [openapiPaths, openapiPaths, h]
    rw [hp]
    exact map_strip_extractFromPaths _ _ _

def wRawA : RawEndpoint :=
  { method := some "get", path := some "/users", server := some "https://a" }

def wRawB : RawEndpoint :=
  { method := some "get", path := some "/users", server := some "https://b" }

theorem normalize_ignores_raw_server_witness :
    normalize_and_dedup [wRawA] wServer = normalize_and_dedup [wRawB] wServer :=
  normalize_ignores_raw_server.2.1 [wRawA] [wRawB] wServer (by decide)

/- extract_resource (generation/helpers.py, lines 209-219): keep the
   segments that are non-empty and start neither with the letter v nor
   with an opening brace, and return the first, defaulting to the literal
   fallback. -/
def extract_resource (path : String) : String :=
  let parts := (pySplit path '/').filter
    (fun p => p != "" && !(pyStartsWith p 'v') && !(pyStartsWith p '{'))
  parts.headD "resource"

theorem headD_filter_eq_find {α : Type} (p : α → Bool) (d : α) :
    ∀ l : List α, (l.filter p).headD d = ((l.find? p).getD d) := by
  intro l
  induction l with
  | nil => rfl
  | cons a t ih =>
    by_cases ha : p a <;> simp [List.filter_cons, List.find?_cons, ha, ih]

/- Counterexample input for C8: the code keeps the api segment (it starts
   with neither v nor an opening brace), so the first remaining segment of
   /api/v1/flights/(id) is api, not flights; and vendors is dropped even
   though it is not a version marker. -/
theorem extract_resource_counter :
    extract_resource "/api/v1/flights/{id}" = "api" ∧
    extract_resource "/api/v1/flights/{id}" ≠ "flights" ∧
    extract_resource "/vendors/list" = "list" := by
  refine ⟨by decide, by decide, by decide⟩

/-- C8 (amended): extract_resource splits the path on the slash, drops
empty segments and every segment that starts with the letter v (digits or
not) or with an opening brace (closed or not), and returns the first
remaining segment, or the literal fallback resource if none remain; in
particular it maps /api/v1/flights/(id) to api, the first surviving
segment, not to flights. -/
theorem extract_resource_spec :
    (∀ path : String,
      extract_resource path =
        ((pySplit path '/').find? (fun p =>
          p != "" && !(pyStartsWith p 'v') && !(pyStartsWith p '{'))).getD
          "resource") ∧
    extract_resource "/api/v1/flights/{id}" = "api" := by
  refine ⟨?_, by decide⟩
  intro path
  rw [extract_resource]
  exact headD_filter_eq_find _ _ _

/- The payload a caller injects when resuming the generation run at the
   review interrupt (generation/nodes.py, lines 344-355).  The Python
   payload is a dict or None; the test
   review_result and review_result.get(edited-tools-key) is falsy when the
   payload is missing as well as when the edited list is empty. -/
structure ReviewResult where
  approved : Option Bool := none
  edited_tools : Option (List Json) := none
  deriving DecidableEq, Repr

/- Core of interrupt_for_review_node after resumption: the tools list the
   node stores back into the generation state. -/
def applyReview (review_result : Option ReviewResult) (tools : List Json) :
    List Json :=
  match review_result with
  | none => tools
  | some rr =>
    match rr.edited_tools with
    | none => tools
    | some l => if l.isEmpty then tools else l

def wTool : Json := Json.obj [("name", Json.str "X__USERS__LIST")]

/- Counterexample for C7: a supplied empty edited list is falsy in the
   Python conjunction, so the node keeps the previous tool list instead of
   replacing it with the empty list. -/
theorem interrupt_review_empty_counter :
    applyReview
      (some { approved := some true, edited_tools := some [] }) [wTool] =
      [wTool] ∧
    applyReview
      (some { approved := some true, edited_tools := some [] }) [wTool] ≠
      ([] : List Json) := by
  refine ⟨rfl, by decide⟩

/-- C7 (amended): resuming the review interrupt with a non-empty edited
tool list makes that list the canonical tool list verbatim; resuming with
an empty edited list, with an approval flag and no edited list, or with no
payload at all leaves the tool list unchanged. -/
theorem interrupt_review_spec :
    (∀ (a : Option Bool) (l tools : List Json), l ≠ [] →
      applyReview (some { approved := a, edited_tools := some l }) tools = l) ∧
    (∀ (a : Option Bool) (tools : List Json),
      applyReview (some { approved := a, edited_tools := none }) tools = tools) ∧
    (∀ (a : Option Bool) (tools : List Json),
      applyReview (some { approved := a, edited_tools := some [] }) tools =
        tools) ∧
    (∀ tools : List Json, applyReview none tools = tools) := by
  refine ⟨?_, fun a tools => rfl, fun a tools => rfl, fun tools => rfl⟩
  intro a l tools hl
  simp [applyReview, List.isEmpty_iff, hl]

theorem interrupt_review_spec_witness :
    applyReview
      (some { approved := some true, edited_tools := some [wTool] }) [] =
      [wTool] :=
  interrupt_review_spec.1 (some true) [wTool] [] (by decide)

/- The discovery graph exactly as build_discovery_graph wires it
   (discovery/graph.py, lines 40-75): six nodes, one conditional edge out
   of classify_input, linear edges to END afterwards. -/
def discoveryNodes : List String :=
  ["classify_input", "parse_files", "discover_from_web",
   "endpoint_extractor", "normalize_and_dedup", "summarize_for_ui"]

def discoveryEdges : List (String × String) :=
  [("parse_files", "endpoint_extractor"),
   ("discover_from_web", "endpoint_extractor"),
   ("endpoint_extractor", "normalize_and_dedup"),
   ("normalize_and_dedup", "summarize_for_ui"),
   ("summarize_for_ui", "__end__")]

def discoveryPathMap : List (String × String) :=
  [("file", "parse_files"), ("url", "discover_from_web")]

/- route_by_input_type over the input_type that classify_input_node set:
   file when file paths were supplied, url otherwise. -/
def route_by_input_type (hasFiles : Bool) : String :=
  if hasFiles then "file" else "url"

/- The interrupt point build_full_workflow declares for the discovery
   graph (utils/workflow.py, line 32). -/
def discoveryInterruptBefore : List String :=
  ["interrupt_for_selection"]

def discoveryEntry : String := "classify_input"

/- The next step after cur: the conditional edge out of classify_input,
   else the unconditional edge table. -/
def discoveryNext (hasFiles : Bool) (cur : String) : Option String :=
  if cur = "classify_input" then
    (discoveryPathMap.find?
      (fun e => e.1 == route_by_input_type hasFiles)).map (fun e => e.2)
  else
    (discoveryEdges.find? (fun e => e.1 == cur)).map (fun e => e.2)

inductive RunOutcome where
  | suspended (step : String)
  | terminal
  | stuck
  deriving DecidableEq, Repr

/- Modelled from the spec: the workflow engine itself is the external
   langgraph library, so its stepping rule is taken from the spec's
   execution algorithm: execute steps in sequence following the edges,
   stop when the cursor reaches a declared interrupt point (before running
   it) or the Terminal state (after running the last step).  The trace
   lists the executed steps in order. -/
def walk (next : String → Option String) (interruptBefore : List String) :
    Nat → String → List String × RunOutcome
  | 0, _ => ([], .stuck)
  | fuel + 1, cur =>
    if cur ∈ interruptBefore then ([], .suspended cur)
    else
      match next cur with
      | none => ([cur], .stuck)
      | some nxt =>
        if nxt = "__end__" then ([cur], .terminal)
        else
          let r := walk next interruptBefore fuel nxt
          (cur :: r.1, r.2)

/- A discovery run started at the entry, with ample fuel. -/
def runDiscovery (hasFiles : Bool) : List String × RunOutcome :=
  walk (discoveryNext hasFiles) discoveryInterruptBefore 10 discoveryEntry

/-- C3: the discovery steps are ordered classify_input, then parse_files
(files supplied) or discover_from_web (otherwise), converging at
endpoint_extractor, then normalize_and_dedup, then summarize_for_ui — but
the graph contains no interrupt_for_selection node: summarize_for_ui edges
directly to Terminal while the declared interrupt name matches no node, so
a run started at the entry executes through to Terminal and never suspends
at interrupt_for_selection. -/
theorem discovery_graph_interrupt_missing :
    runDiscovery true =
      (["classify_input", "parse_files", "endpoint_extractor",
        "normalize_and_dedup", "summarize_for_ui"], RunOutcome.terminal) ∧
    runDiscovery false =
      (["classify_input", "discover_from_web", "endpoint_extractor",
        "normalize_and_dedup", "summarize_for_ui"], RunOutcome.terminal) ∧
    discoveryInterruptBefore = ["interrupt_for_selection"] ∧
    "interrupt_for_selection" ∉ discoveryNodes ∧
    (∀ hasFiles, (runDiscovery hasFiles).2 = RunOutcome.terminal) := by
  refine ⟨by decide, by decide, rfl, by decide, ?_⟩
  intro hasFiles
  cases hasFiles <;> decide

mutual

/- clean_object of remove_custom_fields (generation/helpers.py, lines
   252-286): on a dict, drop every visible binding, recurse into dict
   values, and inside list values recurse into the elements that are
   themselves dicts; any other value (including the deep copy of a
   non-dict argument) is returned unchanged.  Note the code does not
   recurse into lists nested inside lists. -/
def cleanObject : Json → Json
  | Json.obj l => Json.obj (cleanFields l)
  | j => j

def cleanFields : List (String × Json) → List (String × Json)
  | [] => []
  | (k, v) :: rest =>
    if k = "visible" then cleanFields rest
    else (k, cleanVal v) :: cleanFields rest

def cleanVal : Json → Json
  | Json.obj l => Json.obj (cleanFields l)
  | Json.arr elems => Json.arr (cleanElems elems)
  | v => v

def cleanElems : List Json → List Json
  | [] => []
  | Json.obj l :: rest => Json.obj (cleanFields l) :: cleanElems rest
  | e :: rest => e :: cleanElems rest

end

/- remove_custom_fields: clean_object applied to a deep copy (the deep
   copy is the identity in this purely functional model). -/
def remove_custom_fields (schema : Json) : Json :=
  cleanObject schema

mutual

/- Whether a visible key occurs anywhere in the value, at any depth and
   through any nesting of dicts and lists. -/
def hasVisibleAnywhere : Json → Bool
  | Json.obj l => hasVisibleFieldsAny l
  | Json.arr l => hasVisibleElemsAny l
  | _ => false

def hasVisibleFieldsAny : List (String × Json) → Bool
  | [] => false
  | (k, v) :: rest =>
    k == "visible" || hasVisibleAnywhere v || hasVisibleFieldsAny rest

def hasVisibleElemsAny : List Json → Bool
  | [] => false
  | e :: rest => hasVisibleAnywhere e || hasVisibleElemsAny rest

end

mutual

/- Whether a visible key occurs in the region clean_object actually
   reaches: the root dict, dict values, and dict elements directly inside
   list values (dicts buried in lists within lists are out of reach). -/
def hasVisibleReach : Json → Bool
  | Json.obj l => hvFields l
  | _ => false

def hvFields : List (String × Json) → Bool
  | [] => false
  | (k, v) :: rest => k == "visible" || hvVal v || hvFields rest

def hvVal : Json → Bool
  | Json.obj l => hvFields l
  | Json.arr l => hvElems l
  | _ => false

def hvElems : List Json → Bool
  | [] => false
  | Json.obj l :: rest => hvFields l || hvElems rest
  | _ :: rest => hvElems rest

end

/- Counterexample input for C5: a visible key inside a list nested inside
   a list value. -/
def visDeep : Json :=
  Json.obj [("a", Json.arr [Json.arr [Json.obj [("visible", Json.arr [])]]])]

/- Counterexample for C5: remove_custom_fields returns visDeep unchanged,
   with the visible key still present at depth. -/
theorem remove_custom_fields_counter :
    remove_custom_fields visDeep = visDeep ∧
    hasVisibleAnywhere (remove_custom_fields visDeep) = true := by
  refine ⟨rfl, by decide⟩

mutual

theorem hv_cleanFields : ∀ l, hvFields (cleanFields l) = false
  | [] => rfl
  | (k, v) :: rest => by
    by_cases hk : k = "visible"
    · simp only [cleanFields, if_pos hk]
      exact hv_cleanFields rest
    · simp only [cleanFields, if_neg hk, hvFields]
      simp [hk, hv_cleanVal v, hv_cleanFields rest]

theorem hv_cleanVal : ∀ v, hvVal (cleanVal v) = false
  | Json.obj l => by simp only [cleanVal, hvVal]; exact hv_cleanFields l
  | Json.arr l => by simp only [cleanVal, hvVal]; exact hv_cleanElems l
  | Json.null => rfl
  | Json.bool _ => rfl
  | Json.num _ => rfl
  | Json.str _ => rfl

theorem hv_cleanElems : ∀ l, hvElems (cleanElems l) = false
  | [] => rfl
  | Json.obj m :: rest => by
    simp only [cleanElems, hvElems]
    simp [hv_cleanFields m, hv_cleanElems rest]
  | Json.null :: rest => by
    simp only [cleanElems, hvElems]
    exact hv_cleanElems rest
  | Json.bool _ :: rest => by
    simp only [cleanElems, hvElems]
    exact hv_cleanElems rest
  | Json.num _ :: rest => by
    simp only [cleanElems, hvElems]
    exact hv_cleanElems rest
  | Json.str _ :: rest => by
    simp only [cleanElems, hvElems]
    exact hv_cleanElems rest
  | Json.arr _ :: rest => by
    simp only [cleanElems, hvElems]
    exact hv_cleanElems rest

end

mutual

theorem cleanFields_idem : ∀ l, cleanFields (cleanFields l) = cleanFields l
  | [] => rfl
  | (k, v) :: rest => by
    by_cases hk : k = "visible"
    · simp only [cleanFields, if_pos hk]
      exact cleanFields_idem rest
    · simp only [cleanFields, if_neg hk]
      rw [cleanVal_idem v, cleanFields_idem rest]

theorem cleanVal_idem : ∀ v, cleanVal (cleanVal v) = cleanVal v
  | Json.obj l => by
    simp only [cleanVal]
    rw [cleanFields_idem l]
  | Json.arr l => by
    simp only [cleanVal]
    rw [cleanElems_idem l]
  | Json.null => rfl
  | Json.bool _ => rfl
  | Json.num _ => rfl
  | Json.str _ => rfl

theorem cleanElems_idem : ∀ l, cleanElems (cleanElems l) = cleanElems l
  | [] => rfl
  | Json.obj m :: rest => by
    simp only [cleanElems]
    rw [cleanFields_idem m, cleanElems_idem rest]
  | Json.null :: rest => by
    simp only [cleanElems]
    rw [cleanElems_idem rest]
  | Json.bool _ :: rest => by
    simp only [cleanElems]
    rw [cleanElems_idem rest]
  | Json.num _ :: rest => by
    simp only [cleanElems]
    rw [cleanElems_idem rest]
  | Json.str _ :: rest => by
    simp only [cleanElems]
    rw [cleanElems_idem rest]
  | Json.arr m :: rest => by
    simp only [cleanElems]
    rw [cleanElems_idem rest]

end

/-- C5 (amended): remove_custom_fields returns a copy in which every
visible key reachable by the cleaning recursion is stripped — at the root
object, in objects reached through object values, and in objects that are
direct elements of list values — while objects buried inside a list
nested within a list are returned untouched, so a visible key can survive
at such depths; re-applying remove_custom_fields to its own output
returns it unchanged. -/
theorem remove_custom_fields_spec :
    (∀ j : Json, hasVisibleReach (remove_custom_fields j) = false) ∧
    (∀ j : Json,
      remove_custom_fields (remove_custom_fields j) = remove_custom_fields j) := by
  constructor
  · intro j
    cases j with
    | obj l =>
      simp only [remove_custom_fields, cleanObject, hasVisibleReach]
      exact hv_cleanFields l
    | null => rfl
    | bool b => rfl
    | num n => rfl
    | str s => rfl
    | arr l => rfl
  · intro j
    cases j with
    | obj l =>
      simp only [remove_custom_fields, cleanObject]
      rw [cleanFields_idem l]
    | null => rfl
    | bool b => rfl
    | num n => rfl
    | str s => rfl
    | arr l => rfl

/- Python item assignment tool[k] = v (the tool is a dict whenever the
   preceding item lookup succeeded). -/
def jSet (j : Json) (k : String) (v : Json) : Json :=
  match j with
  | Json.obj l => Json.obj (Json.objSet l k v)
  | j => j

/- The structured error validate_node appends for a failing tool:
   tool_name, error text and the stage tag (generation/nodes.py, line 289). -/
def errRecord (nameVal : Json) (msg : String) : Json :=
  Json.obj [("tool_name", nameVal), ("error", Json.str msg),
            ("stage", Json.str "validation")]

/- Whether a tool's cleaned parameter schema passes the checker. -/
def toolPasses (check : Json → Option String) (t : Json) : Bool :=
  (check (remove_custom_fields ((t.get "parameters").getD Json.null))).isNone

/- The loop of validate_node (generation/nodes.py, lines 259-295),
   parametric in the external structural checker
   jsonschema.Draft7Validator.check_schema, modelled as a function
   returning none on success and the SchemaError message on failure (the
   node catches exactly SchemaError).  Item lookups tool["parameters"] and
   (in the failure branch) tool["name"] raise KeyError when absent, hence
   the Option result. -/
def validateGo (check : Json → Option String) :
    List Json → Option (List Json × List Json)
  | [] => some ([], [])
  | t :: rest =>
    match t.get "parameters" with
    | none => none
    | some params =>
      match check (remove_custom_fields params) with
      | none =>
        match validateGo check rest with
        | none => none
        | some r => some (jSet t "validated" (Json.bool true) :: r.1, r.2)
      | some msg =>
        match t.get "name" with
        | none => none
        | some nameVal =>
          match validateGo check rest with
          | none => none
          | some r => some (r.1, errRecord nameVal msg :: r.2)

/- validate_node: the surviving tools replace generation["tools"], and the
   per-failure records are appended to the existing error list in
   encounter order. -/
def validate_node (check : Json → Option String)
    (tools errors : List Json) : Option (List Json × List Json) :=
  (validateGo check tools).map (fun r => (r.1, errors ++ r.2))

theorem validateGo_spec (check : Json → Option String) :
    ∀ tools : List Json,
      (∀ t ∈ tools, Json.hasKey t "parameters" = true ∧
        Json.hasKey t "name" = true) →
      validateGo check tools = some
        ((tools.filter (toolPasses check)).map
          (fun t => jSet t "validated" (Json.bool true)),
         (tools.filter (fun t => !toolPasses check t)).map
          (fun t => errRecord ((t.get "name").getD Json.null)
            ((check (remove_custom_fields
              ((t.get "parameters").getD Json.null))).getD ""))) := by
  intro tools
  induction tools with
  | nil => intro h; rfl
  | cons t rest ih =>
    intro h
    have hhead := h t (List.mem_cons_self t rest)
    obtain ⟨params, hparams⟩ : ∃ p, t.get "parameters" = some p := by
      have h1 := hhead.1
      rwa [Json.hasKey, Option.isSome_iff_exists] at h1
    have htail := ih (fun x hx => h x (List.mem_cons_of_mem t hx))
    rw [validateGo, hparams]
    cases hc : check (remove_custom_fields params) with
    | none =>
      have hpass : toolPasses check t = true := by
        simp [toolPasses, hparams, hc]
      rw [htail]
      simp [List.filter_cons, hpass, hc]
    | some msg =>
      obtain ⟨nameVal, hname⟩ : ∃ nv, t.get "name" = some nv := by
        have h2 := hhead.2
        rwa [Json.hasKey, Option.isSome_iff_exists] at h2
      have hpass : toolPasses check t = false := by
        simp [toolPasses, hparams, hc]
      rw [htail]
      simp [List.filter_cons, hpass, hname, hparams, hc]

/-- C6: for every tool whose cleaned parameter schema fails the structural
checker, validate_node drops the tool and appends an error record carrying
the tool's name and the validation stage tag to the state's error list;
all other tools are kept in their relative order and marked validated, and
a checker failure never aborts the step (the node still returns a result,
whatever the checker rejects). -/
theorem validate_node_spec (check : Json → Option String)
    (tools errors : List Json)
    (h : ∀ t ∈ tools, Json.hasKey t "parameters" = true ∧
      Json.hasKey t "name" = true) :
    validate_node check tools errors = some
      ((tools.filter (toolPasses check)).map
        (fun t => jSet t "validated" (Json.bool true)),
       errors ++ (tools.filter (fun t => !toolPasses check t)).map
        (fun t => errRecord ((t.get "name").getD Json.null)
          ((check (remove_custom_fields
            ((t.get "parameters").getD Json.null))).getD ""))) := by
  rw [validate_node, validateGo_spec check tools h]
  rfl

/- Concrete inputs for the C6 witness: a checker that rejects exactly the
   empty schema document, one passing tool and one failing tool. -/
def wCheck : Json → Option String :=
  fun j => if j = Json.obj [] then some "bad schema" else none

def wToolOK : Json :=
  Json.obj [("name", Json.str "X__USERS__LIST"),
            ("parameters", Json.obj [("type", Json.str "object")])]

def wToolBad : Json :=
  Json.obj [("name", Json.str "X__USERS__CREATE"),
            ("parameters", Json.obj [("visible", Json.arr [])])]

theorem validate_node_spec_witness :
    validate_node wCheck [wToolOK, wToolBad] [] =
      some ([jSet wToolOK "validated" (Json.bool true)],
        [errRecord (Json.str "X__USERS__CREATE") "bad schema"]) := by
  rw [validate_node_spec wCheck [wToolOK, wToolBad] [] (by decide)]
  decide

/- The object-typed test of enhance_schema_with_metadata
   (generation/helpers.py, lines 42-44): type equals the string object, or
   type is a list containing the string object. -/
def isObjType (l : List (String × Json)) : Bool :=
  (Json.objGet l "type" == some (Json.str "object")) ||
  (match Json.objGet l "type" with
   | some (Json.arr ts) => ts.contains (Json.str "object")
   | _ => false)

/- The array branch guard (line 65): not object-typed, and type equals
   the string array. -/
def isArrayTyped (l : List (String × Json)) : Bool :=
  !isObjType l && (Json.objGet l "type" == some (Json.str "array"))

/- The metadata bindings process_object appends to an object-typed dict
   that lacks them, in insertion order: visible (all property names, only
   when there is at least one property), required (empty list), and
   additionalProperties (the flexible flag).  Pre-existing bindings are
   replaced by nothing — Python only inserts the missing keys. -/
def metaAppend (flex : Bool) (l : List (String × Json)) :
    List (String × Json) :=
  let pl := match Json.objGet l "properties" with
    | some (Json.obj pl) => pl
    | _ => []
  (if (Json.objGet l "visible").isNone && !pl.isEmpty then
    [("visible", Json.arr (pl.map (fun kv => Json.str kv.1)))] else []) ++
  (if (Json.objGet l "required").isNone then
    [("required", Json.arr [])] else []) ++
  (if (Json.objGet l "additionalProperties").isNone then
    [("additionalProperties", Json.bool flex)] else [])

mutual

/- process_object of enhance_schema_with_metadata (generation/helpers.py,
   lines 36-75), as a pure function: a dict has each binding's value
   rewritten in place (properties values recurse with flexible false on an
   object-typed node, a dict items value recurses with flexible false on
   an array-typed node, allOf/oneOf/anyOf list members recurse with the
   caller's flexible flag) and, when object-typed, gains the missing
   metadata bindings at the end; non-dicts are returned unchanged.  The
   result is none exactly when Python would raise: an object-typed node
   whose properties value is not a dict. -/
def processObject (flex : Bool) : Json → Option Json
  | Json.obj l =>
    match processFields flex (isObjType l) (isArrayTyped l) l with
    | none => none
    | some l2 =>
      some (Json.obj (if isObjType l then l2 ++ metaAppend flex l else l2))
  | j => some j

def processFields (flex isObj isArr : Bool) :
    List (String × Json) → Option (List (String × Json))
  | [] => some []
  | (k, v) :: rest =>
    let v1 : Option Json :=
      if isObj && k == "properties" then
        match v with
        | Json.obj pl =>
          match processProps pl with
          | none => none
          | some pl2 => some (Json.obj pl2)
        | _ => none
      else if isArr && k == "items" then
        match v with
        | Json.obj _ => processObject false v
        | _ => some v
      else if k == "allOf" || k == "oneOf" || k == "anyOf" then
        match v with
        | Json.arr items =>
          match processItems flex items with
          | none => none
          | some its2 => some (Json.arr its2)
        | _ => some v
      else some v
    match v1 with
    | none => none
    | some v2 =>
      match processFields flex isObj isArr rest with
      | none => none
      | some rest2 => some ((k, v2) :: rest2)

def processProps : List (String × Json) → Option (List (String × Json))
  | [] => some []
  | (k, v) :: rest =>
    match processObject false v with
    | none => none
    | some v2 =>
      match processProps rest with
      | none => none
      | some rest2 => some ((k, v2) :: rest2)

def processItems (flex : Bool) : List Json → Option (List Json)
  | [] => some []
  | e :: rest =>
    match processObject flex e with
    | none => none
    | some e2 =>
      match processItems flex rest with
      | none => none
      | some rest2 => some (e2 :: rest2)

end

/- enhance_schema_with_metadata (generation/helpers.py, lines 20-81): the
   flexible flag is the Python truthiness of the content entry of the
   endpoint's request body (false when missing); a non-dict request body
   would raise at the .get call, hence none. -/
def enhance_schema_with_metadata (schema : Json)
    (endpoint : NormalizedEndpoint) : Option Json :=
  match endpoint.requestBody with
  | Json.obj rl =>
    processObject (Json.truthy ((Json.objGet rl "content").getD Json.null))
      schema
  | _ => none

mutual

/- The augmentation invariant over the recursion's reach: every
   object-typed dict reached through properties (of object-typed nodes),
   a dict items value (of array-typed nodes) or allOf/oneOf/anyOf list
   members carries required and additionalProperties bindings and, when it
   has at least one property, a visible binding. -/
def augPresent : Json → Bool
  | Json.obj l =>
    augFields (isObjType l) (isArrayTyped l) l &&
    (!(isObjType l) ||
      ((Json.objGet l "required").isSome &&
       (Json.objGet l "additionalProperties").isSome &&
       (match Json.objGet l "properties" with
        | some (Json.obj pl) => pl.isEmpty || (Json.objGet l "visible").isSome
        | _ => true)))
  | _ => true

def augFields (isObj isArr : Bool) : List (String × Json) → Bool
  | [] => true
  | (k, v) :: rest =>
    (if isObj && k == "properties" then
      match v with
      | Json.obj pl => augProps pl
      | _ => true
    else if isArr && k == "items" then
      match v with
      | Json.obj _ => augPresent v
      | _ => true
    else if k == "allOf" || k == "oneOf" || k == "anyOf" then
      match v with
      | Json.arr items => augItems items
      | _ => true
    else true) &&
    augFields isObj isArr rest

def augProps : List (String × Json) → Bool
  | [] => true
  | (_, v) :: rest => augPresent v && augProps rest

def augItems : List Json → Bool
  | [] => true
  | e :: rest => augPresent e && augItems rest

end

theorem objGet_cons (k0 k : String) (v0 : Json) (t : List (String × Json)) :
    Json.objGet ((k0, v0) :: t) k =
      if k0 == k then some v0 else Json.objGet t k := by
  by_cases h : k0 == k <;> simp [Json.objGet, List.find?_cons, h]

theorem objGet_append_some {a : List (String × Json)} {k : String} {v : Json}
    (b : List (String × Json)) (h : Json.objGet a k = some v) :
    Json.objGet (a ++ b) k = some v := by
  induction a with
  | nil => simp [Json.objGet] at h
  | cons kv t ih =>
    rw [List.cons_append]
    rw [objGet_cons kv.1 k kv.2] at h ⊢
    by_cases hk : kv.1 == k
    · simpa [hk] using h
    · rw [if_neg hk] at h ⊢
      exact ih h

theorem objGet_append_none {a : List (String × Json)} {k : String}
    (b : List (String × Json)) (h : Json.objGet a k = none) :
    Json.objGet (a ++ b) k = Json.objGet b k := by
  induction a with
  | nil => rfl
  | cons kv t ih =>
    rw [List.cons_append]
    rw [objGet_cons kv.1 k kv.2] at h ⊢
    by_cases hk : kv.1 == k
    · simp [hk] at h
    · rw [if_neg hk] at h ⊢
      exact ih h

/- The relation the per-binding rewrite of process_object establishes
   between an input binding value and its output value. -/
def FieldRel (flex isObj isArr : Bool) (k : String) (v v2 : Json) : Prop :=
  if isObj = true ∧ k = "properties" then
    ∃ pl pl2, v = Json.obj pl ∧ processProps pl = some pl2 ∧
      v2 = Json.obj pl2
  else if isArr = true ∧ k = "items" then
    ((∃ il, v = Json.obj il) → processObject false v = some v2) ∧
    ((∀ il, v ≠ Json.obj il) → v2 = v)
  else if k = "allOf" ∨ k = "oneOf" ∨ k = "anyOf" then
    ((∃ its, v = Json.arr its) →
      ∃ its its2, v = Json.arr its ∧ processItems flex its = some its2 ∧
        v2 = Json.arr its2) ∧
    ((∀ its, v ≠ Json.arr its) → v2 = v)
  else v2 = v

theorem FieldRel_not_props {flex isObj isArr : Bool} {k : String} {v : Json}
    (h1 : ¬(isObj = true ∧ k = "properties"))
    (hno : ∀ its, v ≠ Json.arr its)
    (hno2 : (isArr = true ∧ k = "items") → ∀ il, v ≠ Json.obj il) :
    FieldRel flex isObj isArr k v v := by
  rw [FieldRel, if_neg h1]
  split
  case isTrue h2 =>
    refine ⟨fun he => ?_, fun _ => rfl⟩
    obtain ⟨il, hi⟩ := he
    exact absurd hi (hno2 h2 il)
  case isFalse h2 =>
    split
    case isTrue h3 =>
      refine ⟨fun he => ?_, fun _ => rfl⟩
      obtain ⟨its, hi⟩ := he
      exact absurd hi (hno its)
    case isFalse h3 => rfl

theorem processFields_inv {flex isObj isArr : Bool} {k : String} {v : Json}
    {rest : List (String × Json)} {l2 : List (String × Json)}
    (h : processFields flex isObj isArr ((k, v) :: rest) = some l2) :
    ∃ v2 rest2, l2 = (k, v2) :: rest2 ∧
      processFields flex isObj isArr rest = some rest2 ∧
      FieldRel flex isObj isArr k v v2 := by
  cases v with
  | obj pl =>
    simp only [processFields] at h
    by_cases h1 : (isObj && k == "properties") = true
    · have h1p : isObj = true ∧ k = "properties" := by simpa using h1
      rw [if_pos h1] at h
      cases hpp : processProps pl with
      | none => rw [hpp] at h; simp at h
      | some pl2 =>
        rw [hpp] at h
        cases hr : processFields flex isObj isArr rest with
        | none => rw [hr] at h; simp at h
        | some rest2 =>
          rw [hr] at h
          simp only [Option.some.injEq] at h
          refine ⟨Json.obj pl2, rest2, h.symm, rfl, ?_⟩
          rw [FieldRel, if_pos h1p]
          exact ⟨pl, pl2, rfl, hpp, rfl⟩
    · have h1p : ¬(isObj = true ∧ k = "properties") := by
        intro hc
        exact h1 (by simp [hc.1, hc.2])
      rw [if_neg h1] at h
      by_cases h2 : (isArr && k == "items") = true
      · have h2p : isArr = true ∧ k = "items" := by simpa using h2
        rw [if_pos h2] at h
        cases hpo : processObject false (Json.obj pl) with
        | none => rw [hpo] at h; simp at h
        | some v2 =>
          rw [hpo] at h
          cases hr : processFields flex isObj isArr rest with
          | none => rw [hr] at h; simp at h
          | some rest2 =>
            rw [hr] at h
            simp only [Option.some.injEq] at h
            refine ⟨v2, rest2, h.symm, rfl, ?_⟩
            rw [FieldRel, if_neg h1p, if_pos h2p]
            exact ⟨fun _ => hpo, fun hno => absurd rfl (hno pl)⟩
      · have h2p : ¬(isArr = true ∧ k = "items") := by
          intro hc
          exact h2 (by simp [hc.1, hc.2])
        rw [if_neg h2] at h
        cases hr : processFields flex isObj isArr rest with
        | none => rw [hr] at h; simp at h
        | some rest2 =>
          rw [hr] at h
          simp only [ite_self, Option.some.injEq] at h
          refine ⟨Json.obj pl, rest2, h.symm, rfl, ?_⟩
          rw [FieldRel, if_neg h1p, if_neg h2p]
          split
          · refine ⟨fun he => ?_, fun _ => rfl⟩
            obtain ⟨its, hi⟩ := he
            cases hi
          · rfl
  | arr its =>
    simp only [processFields] at h
    by_cases h1 : (isObj && k == "properties") = true
    · rw [if_pos h1] at h
      simp at h
    · have h1p : ¬(isObj = true ∧ k = "properties") := by
        intro hc
        exact h1 (by simp [hc.1, hc.2])
      rw [if_neg h1] at h
      by_cases h2 : (isArr && k == "items") = true
      · have h2p : isArr = true ∧ k = "items" := by simpa using h2
        rw [if_pos h2] at h
        cases hr : processFields flex isObj isArr rest with
        | none => rw [hr] at h; simp at h
        | some rest2 =>
          rw [hr] at h
          simp only [Option.some.injEq] at h
          refine ⟨Json.arr its, rest2, h.symm, rfl, ?_⟩
          rw [FieldRel, if_neg h1p, if_pos h2p]
          refine ⟨fun he => ?_, fun _ => rfl⟩
          obtain ⟨il, hi⟩ := he
          cases hi
      · have h2p : ¬(isArr = true ∧ k = "items") := by
          intro hc
          exact h2 (by simp [hc.1, hc.2])
        rw [if_neg h2] at h
        by_cases h3 : (k == "allOf" || k == "oneOf" || k == "anyOf") = true
        · have h3p : k = "allOf" ∨ k = "oneOf" ∨ k = "anyOf" := by
            simpa [or_assoc] using h3
          rw [if_pos h3] at h
          cases hpi : processItems flex its with
          | none => rw [hpi] at h; simp at h
          | some its2 =>
            rw [hpi] at h
            cases hr : processFields flex isObj isArr rest with
            | none => rw [hr] at h; simp at h
            | some rest2 =>
              rw [hr] at h
              simp only [Option.some.injEq] at h
              refine ⟨Json.arr its2, rest2, h.symm, rfl, ?_⟩
              rw [FieldRel, if_neg h1p, if_neg h2p, if_pos h3p]
              exact ⟨fun _ => ⟨its, its2, rfl, hpi, rfl⟩,
                fun hno => absurd rfl (hno its)⟩
        · have h3p : ¬(k = "allOf" ∨ k = "oneOf" ∨ k = "anyOf") := by
            intro hc
            apply h3
            rcases hc with hc | hc | hc <;> simp [hc]
          rw [if_neg h3] at h
          cases hr : processFields flex isObj isArr rest with
          | none => rw [hr] at h; simp at h
          | some rest2 =>
            rw [hr] at h
            simp only [Option.some.injEq] at h
            refine ⟨Json.arr its, rest2, h.symm, rfl, ?_⟩
            rw [FieldRel, if_neg h1p, if_neg h2p, if_neg h3p]
  | null =>
    simp only [processFields] at h
    by_cases h1 : (isObj && k == "properties") = true
    · rw [if_pos h1] at h
      simp at h
    · have h1p : ¬(isObj = true ∧ k = "properties") := by
        intro hc
        exact h1 (by simp [hc.1, hc.2])
      rw [if_neg h1] at h
      cases hr : processFields flex isObj isArr rest with
      | none => rw [hr] at h; simp at h
      | some rest2 =>
        rw [hr] at h
        simp only [ite_self, Option.some.injEq] at h
        refine ⟨Json.null, rest2, h.symm, rfl, ?_⟩
        exact FieldRel_not_props h1p (fun its hi => by cases hi)
          (fun _ il hi => by cases hi)
  | bool b =>
    simp only [processFields] at h
    by_cases h1 : (isObj && k == "properties") = true
    · rw [if_pos h1] at h
      simp at h
    · have h1p : ¬(isObj = true ∧ k = "properties") := by
        intro hc
        exact h1 (by simp [hc.1, hc.2])
      rw [if_neg h1] at h
      cases hr : processFields flex isObj isArr rest with
      | none => rw [hr] at h; simp at h
      | some rest2 =>
        rw [hr] at h
        simp only [ite_self, Option.some.injEq] at h
        refine ⟨Json.bool b, rest2, h.symm, rfl, ?_⟩
        exact FieldRel_not_props h1p (fun its hi => by cases hi)
          (fun _ il hi => by cases hi)
  | num n =>
    simp only [processFields] at h
    by_cases h1 : (isObj && k == "properties") = true
    · rw [if_pos h1] at h
      simp at h
    · have h1p : ¬(isObj = true ∧ k = "properties") := by
        intro hc
        exact h1 (by simp [hc.1, hc.2])
      rw [if_neg h1] at h
      cases hr : processFields flex isObj isArr rest with
      | none => rw [hr] at h; simp at h
      | some rest2 =>
        rw [hr] at h
        simp only [ite_self, Option.some.injEq] at h
        refine ⟨Json.num n, rest2, h.symm, rfl, ?_⟩
        exact FieldRel_not_props h1p (fun its hi => by cases hi)
          (fun _ il hi => by cases hi)
  | str s =>
    simp only [processFields] at h
    by_cases h1 : (isObj && k == "properties") = true
    · rw [if_pos h1] at h
      simp at h
    · have h1p : ¬(isObj = true ∧ k = "properties") := by
        intro hc
        exact h1 (by simp [hc.1, hc.2])
      rw [if_neg h1] at h
      cases hr : processFields flex isObj isArr rest with
      | none => rw [hr] at h; simp at h
      | some rest2 =>
        rw [hr] at h
        simp only [ite_self, Option.some.injEq] at h
        refine ⟨Json.str s, rest2, h.symm, rfl, ?_⟩
        exact FieldRel_not_props h1p (fun its hi => by cases hi)
          (fun _ il hi => by cases hi)

/- A binding whose key is not properties, items or a composition key is
   left untouched by the per-binding rewrite. -/
theorem FieldRel_plain {flex io ia : Bool} {k : String} {v v2 : Json}
    (hk1 : k ≠ "properties") (hk2 : k ≠ "items")
    (hk3 : ¬(k = "allOf" ∨ k = "oneOf" ∨ k = "anyOf"))
    (h : FieldRel flex io ia k v v2) : v2 = v := by
  rw [FieldRel, if_neg (fun hc => hk1 hc.2), if_neg (fun hc => hk2 hc.2),
    if_neg hk3] at h
  exact h

/- processFields preserves key presence: a key bound in the input is bound
   in the output, with values related by the per-binding relation. -/
theorem processFields_objGet_some {flex io ia : Bool}
    {l l2 : List (String × Json)}
    (h : processFields flex io ia l = some l2) :
    ∀ k v, Json.objGet l k = some v →
      ∃ v2, Json.objGet l2 k = some v2 ∧ FieldRel flex io ia k v v2 := by
  induction l generalizing l2 with
  | nil => intro k v hv; simp [Json.objGet] at hv
  | cons kv rest ih =>
    obtain ⟨k0, v0⟩ := kv
    obtain ⟨v2, rest2, hl2, hrest, hrel⟩ := processFields_inv h
    intro k v hv
    subst hl2
    rw [objGet_cons] at hv ⊢
    by_cases hk : (k0 == k) = true
    · rw [if_pos hk] at hv ⊢
      have hkeq : k0 = k := by simpa using hk
      subst hkeq
      have hveq : v0 = v := by simpa using hv
      subst hveq
      exact ⟨v2, rfl, hrel⟩
    · rw [if_neg hk] at hv ⊢
      exact ih hrest k v hv

/- processFields preserves key absence. -/
theorem processFields_objGet_none {flex io ia : Bool}
    {l l2 : List (String × Json)}
    (h : processFields flex io ia l = some l2) :
    ∀ k, Json.objGet l k = none → Json.objGet l2 k = none := by
  induction l generalizing l2 with
  | nil =>
    intro k _
    simp only [processFields, Option.some.injEq] at h
    rw [← h]
    rfl
  | cons kv rest ih =>
    obtain ⟨k0, v0⟩ := kv
    obtain ⟨v2, rest2, hl2, hrest, _⟩ := processFields_inv h
    intro k hv
    subst hl2
    rw [objGet_cons] at hv ⊢
    by_cases hk : (k0 == k) = true
    · rw [if_pos hk] at hv
      simp at hv
    · rw [if_neg hk] at hv ⊢
      exact ih hrest k hv

/- A key that is neither properties, items nor a composition key has the
   same value before and after processFields. -/
theorem processFields_objGet_plain {flex io ia : Bool}
    {l l2 : List (String × Json)} {k : String}
    (h : processFields flex io ia l = some l2)
    (hk1 : k ≠ "properties") (hk2 : k ≠ "items")
    (hk3 : ¬(k = "allOf" ∨ k = "oneOf" ∨ k = "anyOf")) :
    Json.objGet l2 k = Json.objGet l k := by
  cases hv : Json.objGet l k with
  | none => exact processFields_objGet_none h k hv
  | some v =>
    obtain ⟨v2, hg, hrel⟩ := processFields_objGet_some h k v hv
    rw [hg, FieldRel_plain hk1 hk2 hk3 hrel]

theorem objGet_eq_none_of_keys {b : List (String × Json)} {k : String}
    (h : ∀ kv ∈ b, kv.1 ≠ k) : Json.objGet b k = none := by
  unfold Json.objGet
  have hf : b.find? (fun kv => kv.1 == k) = none :=
    List.find?_eq_none.2 (fun x hx => by simpa using h x hx)
  rw [hf]
  rfl

/- Every binding metaAppend produces carries one of the three metadata
   keys. -/
theorem metaAppend_keys {flex : Bool} {l : List (String × Json)} :
    ∀ kv ∈ metaAppend flex l,
      kv.1 = "visible" ∨ kv.1 = "required" ∨
        kv.1 = "additionalProperties" := by
  intro kv hkv
  simp only [metaAppend, List.mem_append] at hkv
  rcases hkv with (h | h) | h
  · split at h
    · simp at h
      rw [h]
      exact Or.inl rfl
    · simp at h
  · split at h
    · simp at h
      rw [h]
      exact Or.inr (Or.inl rfl)
    · simp at h
  · split at h
    · simp at h
      rw [h]
      exact Or.inr (Or.inr rfl)
    · simp at h

theorem metaAppend_objGet_none {flex : Bool} {l : List (String × Json)}
    {k : String} (h1 : k ≠ "visible") (h2 : k ≠ "required")
    (h3 : k ≠ "additionalProperties") :
    Json.objGet (metaAppend flex l) k = none :=
  objGet_eq_none_of_keys (fun kv hkv heq => by
    rcases metaAppend_keys kv hkv with h | h | h
    · exact h1 (heq ▸ h)
    · exact h2 (heq ▸ h)
    · exact h3 (heq ▸ h))

/- objGet walks past a conditional singleton whose key differs. -/
theorem objGet_ifsingle_ne {c : Prop} [Decidable c] {k0 k : String}
    {v : Json} {rest : List (String × Json)} (h : k0 ≠ k) :
    Json.objGet ((if c then [(k0, v)] else []) ++ rest) k =
      Json.objGet rest k := by
  split
  · rw [List.singleton_append, objGet_cons, if_neg (by simpa using h)]
  · rw [List.nil_append]

theorem metaAppend_required {flex : Bool} {l : List (String × Json)}
    (h : Json.objGet l "required" = none) :
    Json.objGet (metaAppend flex l) "required" = some (Json.arr []) := by
  have hvr : ("visible" : String) ≠ "required" := by decide
  have hc : (Json.objGet l "required").isNone = true := by rw [h]; rfl
  simp only [metaAppend]
  rw [List.append_assoc, objGet_ifsingle_ne hvr, if_pos hc,
    List.singleton_append, objGet_cons, if_pos (by decide)]

theorem metaAppend_addProps {flex : Bool} {l : List (String × Json)}
    (h : Json.objGet l "additionalProperties" = none) :
    Json.objGet (metaAppend flex l) "additionalProperties" =
      some (Json.bool flex) := by
  have hva : ("visible" : String) ≠ "additionalProperties" := by decide
  have hra : ("required" : String) ≠ "additionalProperties" := by decide
  have hc : (Json.objGet l "additionalProperties").isNone = true := by
    rw [h]; rfl
  simp only [metaAppend]
  rw [List.append_assoc, objGet_ifsingle_ne hva, objGet_ifsingle_ne hra,
    if_pos hc, objGet_cons, if_pos (by decide)]

theorem metaAppend_visible {flex : Bool} {l : List (String × Json)}
    {pl : List (String × Json)}
    (hv : Json.objGet l "visible" = none)
    (hp : Json.objGet l "properties" = some (Json.obj pl))
    (hne : pl ≠ []) :
    Json.objGet (metaAppend flex l) "visible" =
      some (Json.arr (pl.map (fun kv => Json.str kv.1))) := by
  cases pl with
  | nil => exact absurd rfl hne
  | cons a t =>
    simp only [metaAppend, hv, hp, Option.isNone_none, List.isEmpty_cons,
      Bool.not_false, Bool.true_and, eq_self_iff_true, if_true]
    rw [List.append_assoc, List.singleton_append, objGet_cons,
      if_pos (by decide)]

theorem isObjType_congr {l l2 : List (String × Json)}
    (h : Json.objGet l2 "type" = Json.objGet l "type") :
    isObjType l2 = isObjType l := by
  unfold isObjType
  rw [h]

theorem isArrayTyped_congr {l l2 : List (String × Json)}
    (h : Json.objGet l2 "type" = Json.objGet l "type") :
    isArrayTyped l2 = isArrayTyped l := by
  unfold isArrayTyped
  rw [h, isObjType_congr h]

theorem objGet_append_right_none {a b : List (String × Json)} {k : String}
    (hb : Json.objGet b k = none) :
    Json.objGet (a ++ b) k = Json.objGet a k := by
  cases ha : Json.objGet a k with
  | some v => exact objGet_append_some b ha
  | none => rw [objGet_append_none b ha, hb]

theorem augFields_append (io ia : Bool) (a b : List (String × Json)) :
    augFields io ia (a ++ b) = (augFields io ia a && augFields io ia b) := by
  induction a with
  | nil => rw [List.nil_append]; rfl
  | cons kv t ih =>
    obtain ⟨k, v⟩ := kv
    cases v <;>
      simp only [List.cons_append, augFields, List.append_eq, ih,
        Bool.and_assoc]

theorem augFields_ifsingle (io ia : Bool) {c : Prop} [Decidable c]
    {k : String} {v : Json} (hk1 : (k == "properties") = false)
    (hk2 : (k == "items") = false)
    (hk3 : (k == "allOf" || k == "oneOf" || k == "anyOf") = false) :
    augFields io ia (if c then [(k, v)] else []) = true := by
  split
  · cases v <;> simp [augFields, hk1, hk2, hk3]
  · rfl

theorem augFields_metaAppend (io ia flex : Bool)
    (l : List (String × Json)) :
    augFields io ia (metaAppend flex l) = true := by
  simp only [metaAppend]
  rw [augFields_append, augFields_append,
    augFields_ifsingle io ia (by decide) (by decide) (by decide),
    augFields_ifsingle io ia (by decide) (by decide) (by decide),
    augFields_ifsingle io ia (by decide) (by decide) (by decide)]
  rfl

/- The facts about an output binding value that imply the per-binding
   augmentation check. -/
def AugField (io ia : Bool) (k : String) (v2 : Json) : Prop :=
  ((io = true ∧ k = "properties") →
    ∀ pl2, v2 = Json.obj pl2 → augProps pl2 = true) ∧
  ((ia = true ∧ k = "items") →
    ∀ il2, v2 = Json.obj il2 → augPresent (Json.obj il2) = true) ∧
  ((k = "allOf" ∨ k = "oneOf" ∨ k = "anyOf") →
    ∀ its2, v2 = Json.arr its2 → augItems its2 = true)

theorem augFields_cons_intro {io ia : Bool} {k : String} {v2 : Json}
    {rest2 : List (String × Json)} (hf : AugField io ia k v2)
    (hr : augFields io ia rest2 = true) :
    augFields io ia ((k, v2) :: rest2) = true := by
  obtain ⟨h1, h2, h3⟩ := hf
  cases v2 with
  | obj pl2 =>
    simp only [augFields, hr, Bool.and_true]
    by_cases hb1 : (io && k == "properties") = true
    · rw [if_pos hb1]
      exact h1 (by simpa using hb1) pl2 rfl
    · rw [if_neg hb1]
      by_cases hb2 : (ia && k == "items") = true
      · rw [if_pos hb2]
        exact h2 (by simpa using hb2) pl2 rfl
      · rw [if_neg hb2]
        exact ite_self true
  | arr its2 =>
    simp only [augFields, hr, Bool.and_true]
    by_cases hb1 : (io && k == "properties") = true
    · rw [if_pos hb1]
    · rw [if_neg hb1]
      by_cases hb2 : (ia && k == "items") = true
      · rw [if_pos hb2]
      · rw [if_neg hb2]
        by_cases hb3 : (k == "allOf" || k == "oneOf" || k == "anyOf") = true
        · rw [if_pos hb3]
          exact h3 (by simpa [or_assoc] using hb3) its2 rfl
        · rw [if_neg hb3]
  | null => simp [augFields, hr]
  | bool b => simp [augFields, hr]
  | num n => simp [augFields, hr]
  | str s => simp [augFields, hr]

theorem processObject_obj_inv {flex : Bool} {l : List (String × Json)}
    {j2 : Json} (h : processObject flex (Json.obj l) = some j2) :
    ∃ l2, processFields flex (isObjType l) (isArrayTyped l) l = some l2 ∧
      j2 = Json.obj (if isObjType l then l2 ++ metaAppend flex l else l2) := by
  simp only [processObject] at h
  cases hpf : processFields flex (isObjType l) (isArrayTyped l) l with
  | none => rw [hpf] at h; simp at h
  | some l2 =>
    rw [hpf] at h
    simp only [Option.some.injEq] at h
    exact ⟨l2, rfl, h.symm⟩

theorem processFields_nil_inv {flex io ia : Bool}
    {l2 : List (String × Json)}
    (h : processFields flex io ia [] = some l2) : l2 = [] := by
  simp only [processFields, Option.some.injEq] at h
  exact h.symm

theorem processProps_cons_inv {k : String} {v : Json}
    {rest pl2 : List (String × Json)}
    (h : processProps ((k, v) :: rest) = some pl2) :
    ∃ v2 r2, processObject false v = some v2 ∧
      processProps rest = some r2 ∧ pl2 = (k, v2) :: r2 := by
  simp only [processProps] at h
  cases ho : processObject false v with
  | none => rw [ho] at h; simp at h
  | some v2 =>
    rw [ho] at h
    cases hr : processProps rest with
    | none => rw [hr] at h; simp at h
    | some r2 =>
      rw [hr] at h
      simp only [Option.some.injEq] at h
      exact ⟨v2, r2, rfl, rfl, h.symm⟩

theorem processItems_cons_inv {flex : Bool} {e : Json} {rest : List Json}
    {its2 : List Json} (h : processItems flex (e :: rest) = some its2) :
    ∃ e2 r2, processObject flex e = some e2 ∧
      processItems flex rest = some r2 ∧ its2 = e2 :: r2 := by
  simp only [processItems] at h
  cases ho : processObject flex e with
  | none => rw [ho] at h; simp at h
  | some e2 =>
    rw [ho] at h
    cases hr : processItems flex rest with
    | none => rw [hr] at h; simp at h
    | some r2 =>
      rw [hr] at h
      simp only [Option.some.injEq] at h
      exact ⟨e2, r2, rfl, rfl, h.symm⟩

/- Every successful run of the schema augmentation establishes the
   augmentation invariant on its output, at all four levels of the mutual
   recursion at once (strong induction on the size of the input). -/
theorem augAll : ∀ n : Nat,
    (∀ (flex : Bool) (j j2 : Json), sizeOf j ≤ n →
      processObject flex j = some j2 → augPresent j2 = true) ∧
    (∀ (flex io ia : Bool) (l l2 : List (String × Json)), sizeOf l ≤ n →
      processFields flex io ia l = some l2 → augFields io ia l2 = true) ∧
    (∀ (pl pl2 : List (String × Json)), sizeOf pl ≤ n →
      processProps pl = some pl2 → augProps pl2 = true) ∧
    (∀ (flex : Bool) (its its2 : List Json), sizeOf its ≤ n →
      processItems flex its = some its2 → augItems its2 = true) := by
  intro n
  induction n using Nat.strong_induction_on with
  | _ n ih =>
    refine ⟨?_, ?_, ?_, ?_⟩
    · intro flex j j2 hsz h
      cases j with
      | null =>
        simp only [processObject, Option.some.injEq] at h
        rw [← h]
        rfl
      | bool b =>
        simp only [processObject, Option.some.injEq] at h
        rw [← h]
        rfl
      | num m =>
        simp only [processObject, Option.some.injEq] at h
        rw [← h]
        rfl
      | str s =>
        simp only [processObject, Option.some.injEq] at h
        rw [← h]
        rfl
      | arr es =>
        simp only [processObject, Option.some.injEq] at h
        rw [← h]
        rfl
      | obj l =>
        obtain ⟨l2, hpf, hj2⟩ := processObject_obj_inv h
        subst hj2
        have hszl : sizeOf l < n := by
          simp only [Json.obj.sizeOf_spec] at hsz
          omega
        have haf : augFields (isObjType l) (isArrayTyped l) l2 = true :=
          (ih (sizeOf l) hszl).2.1 flex (isObjType l) (isArrayTyped l) l l2
            (le_refl _) hpf
        have htype : Json.objGet l2 "type" = Json.objGet l "type" :=
          processFields_objGet_plain hpf (by decide) (by decide) (by decide)
        by_cases hio : isObjType l = true
        · rw [if_pos hio]
          have htype2 : Json.objGet (l2 ++ metaAppend flex l) "type" =
              Json.objGet l "type" := by
            rw [objGet_append_right_none
              (metaAppend_objGet_none (by decide) (by decide) (by decide)),
              htype]
          simp only [augPresent]
          rw [isObjType_congr htype2, isArrayTyped_congr htype2, hio,
            Bool.and_eq_true]
          rw [hio] at haf
          constructor
          · rw [augFields_append, haf, augFields_metaAppend]
            rfl
          · rw [Bool.not_true, Bool.false_or]
            have hwr : ∃ w,
                Json.objGet (l2 ++ metaAppend flex l) "required" = some w := by
              cases hreq : Json.objGet l "required" with
              | some w =>
                have h2 : Json.objGet l2 "required" = some w := by
                  rw [processFields_objGet_plain hpf (by decide) (by decide)
                    (by decide), hreq]
                exact ⟨w, objGet_append_some _ h2⟩
              | none =>
                have h2 : Json.objGet l2 "required" = none :=
                  processFields_objGet_none hpf _ hreq
                exact ⟨Json.arr [], by
                  rw [objGet_append_none _ h2, metaAppend_required hreq]⟩
            have hwa : ∃ w,
                Json.objGet (l2 ++ metaAppend flex l)
                  "additionalProperties" = some w := by
              cases hap : Json.objGet l "additionalProperties" with
              | some w =>
                have h2 : Json.objGet l2 "additionalProperties" = some w := by
                  rw [processFields_objGet_plain hpf (by decide) (by decide)
                    (by decide), hap]
                exact ⟨w, objGet_append_some _ h2⟩
              | none =>
                have h2 : Json.objGet l2 "additionalProperties" = none :=
                  processFields_objGet_none hpf _ hap
                exact ⟨Json.bool flex, by
                  rw [objGet_append_none _ h2, metaAppend_addProps hap]⟩
            obtain ⟨wr, hwr⟩ := hwr
            obtain ⟨wa, hwa⟩ := hwa
            rw [hwr, hwa]
            simp only [Option.isSome_some, Bool.true_and]
            cases hp : Json.objGet l "properties" with
            | none =>
              have h2 : Json.objGet l2 "properties" = none :=
                processFields_objGet_none hpf _ hp
              rw [objGet_append_none _ h2,
                metaAppend_objGet_none (by decide) (by decide) (by decide)]
            | some v =>
              obtain ⟨v2, hg, hrel⟩ := processFields_objGet_some hpf _ v hp
              rw [FieldRel, if_pos ⟨hio, rfl⟩] at hrel
              obtain ⟨pl, pl2, hveq, hpp, hv2⟩ := hrel
              subst hveq
              subst hv2
              rw [objGet_append_some _ hg]
              show (pl2.isEmpty ||
                (Json.objGet (l2 ++ metaAppend flex l) "visible").isSome) =
                  true
              cases pl with
              | nil =>
                have hpl2 : pl2 = [] := by
                  simp only [processProps, Option.some.injEq] at hpp
                  exact hpp.symm
                rw [hpl2]
                rfl
              | cons a t =>
                obtain ⟨ak, av⟩ := a
                obtain ⟨w2, r2, _, _, hpl2⟩ := processProps_cons_inv hpp
                subst hpl2
                simp only [List.isEmpty_cons, Bool.false_or]
                cases hvis : Json.objGet l "visible" with
                | some w =>
                  have h2 : Json.objGet l2 "visible" = some w := by
                    rw [processFields_objGet_plain hpf (by decide) (by decide)
                      (by decide), hvis]
                  rw [objGet_append_some _ h2]
                  rfl
                | none =>
                  have h2 : Json.objGet l2 "visible" = none :=
                    processFields_objGet_none hpf _ hvis
                  rw [objGet_append_none _ h2,
                    metaAppend_visible hvis hp (by simp)]
                  rfl
        · rw [if_neg hio]
          simp only [augPresent]
          rw [isObjType_congr htype, isArrayTyped_congr htype,
            Bool.and_eq_true]
          have hio' : isObjType l = false := by
            cases hobt : isObjType l
            · rfl
            · exact absurd hobt hio
          constructor
          · exact haf
          · rw [hio']
            rfl
    · intro flex io ia l l2 hsz h
      cases l with
      | nil =>
        rw [processFields_nil_inv h]
        rfl
      | cons kv rest =>
        obtain ⟨k, v⟩ := kv
        obtain ⟨v2, rest2, hl2, hrest, hrel⟩ := processFields_inv h
        subst hl2
        have hszr : sizeOf rest < n := by
          simp only [List.cons.sizeOf_spec] at hsz
          omega
        have hszv : sizeOf v < n := by
          simp only [List.cons.sizeOf_spec, Prod.mk.sizeOf_spec] at hsz
          omega
        refine augFields_cons_intro ?_
          ((ih (sizeOf rest) hszr).2.1 flex io ia rest rest2 (le_refl _)
            hrest)
        by_cases hc1 : io = true ∧ k = "properties"
        · rw [FieldRel, if_pos hc1] at hrel
          obtain ⟨pl, pl2, hveq, hpp, hv2⟩ := hrel
          subst hveq
          subst hv2
          refine ⟨?_, ?_, ?_⟩
          · intro _ pl2' hpl2'
            injection hpl2' with he
            rw [← he]
            have hszpl : sizeOf pl < n := by
              simp only [Json.obj.sizeOf_spec] at hszv
              omega
            exact (ih (sizeOf pl) hszpl).2.2.1 pl pl2 (le_refl _) hpp
          · intro hc2
            exact absurd (hc1.2.symm.trans hc2.2) (by decide)
          · intro hc3
            rcases hc3 with hc3 | hc3 | hc3 <;>
              exact absurd (hc1.2.symm.trans hc3) (by decide)
        · by_cases hc2 : ia = true ∧ k = "items"
          · rw [FieldRel, if_neg hc1, if_pos hc2] at hrel
            obtain ⟨hobj, hnot⟩ := hrel
            refine ⟨fun hc => absurd hc hc1, ?_, ?_⟩
            · intro _ il2 hil2
              by_cases hvo : ∃ il, v = Json.obj il
              · have hpo := hobj hvo
                have haug := (ih (sizeOf v) hszv).1 false v v2 (le_refl _)
                  hpo
                rw [hil2] at haug
                exact haug
              · have hveq := hnot (fun il hi => hvo ⟨il, hi⟩)
                exact absurd ⟨il2, hveq.symm.trans hil2⟩ hvo
            · intro hc3
              rcases hc3 with hc3 | hc3 | hc3 <;>
                exact absurd (hc2.2.symm.trans hc3) (by decide)
          · by_cases hc3 : k = "allOf" ∨ k = "oneOf" ∨ k = "anyOf"
            · rw [FieldRel, if_neg hc1, if_neg hc2, if_pos hc3] at hrel
              obtain ⟨harr, hnot⟩ := hrel
              refine ⟨fun hc => absurd hc hc1, fun hc => absurd hc hc2, ?_⟩
              intro _ its2' hits2'
              by_cases hac : ∃ its, v = Json.arr its
              · obtain ⟨its, its2, hveq, hpi, hv2⟩ := harr hac
                subst hveq
                have hszits : sizeOf its < n := by
                  simp only [Json.arr.sizeOf_spec] at hszv
                  omega
                have haug := (ih (sizeOf its) hszits).2.2.2 flex its its2
                  (le_refl _) hpi
                have heq : its2' = its2 := by
                  have h0 := hv2.symm.trans hits2'
                  injection h0 with he
                  exact he.symm
                rw [heq]
                exact haug
              · have hveq := hnot (fun its hi => hac ⟨its, hi⟩)
                exact absurd ⟨its2', hveq.symm.trans hits2'⟩ hac
            · rw [FieldRel, if_neg hc1, if_neg hc2, if_neg hc3] at hrel
              exact ⟨fun hc => absurd hc hc1, fun hc => absurd hc hc2,
                fun hc => absurd hc hc3⟩
    · intro pl pl2 hsz h
      cases pl with
      | nil =>
        have hpl2 : pl2 = [] := by
          simp only [processProps, Option.some.injEq] at h
          exact h.symm
        rw [hpl2]
        rfl
      | cons kv rest =>
        obtain ⟨k, v⟩ := kv
        obtain ⟨v2, r2, ho, hr, hpl2⟩ := processProps_cons_inv h
        subst hpl2
        have hszv : sizeOf v < n := by
          simp only [List.cons.sizeOf_spec, Prod.mk.sizeOf_spec] at hsz
          omega
        have hszr : sizeOf rest < n := by
          simp only [List.cons.sizeOf_spec] at hsz
          omega
        have h1 := (ih (sizeOf v) hszv).1 false v v2 (le_refl _) ho
        have h2 := (ih (sizeOf rest) hszr).2.2.1 rest r2 (le_refl _) hr
        simp only [augProps, h1, h2, Bool.and_self]
    · intro flex its its2 hsz h
      cases its with
      | nil =>
        have hits2 : its2 = [] := by
          simp only [processItems, Option.some.injEq] at h
          exact h.symm
        rw [hits2]
        rfl
      | cons e rest =>
        obtain ⟨e2, r2, ho, hr, hits2⟩ := processItems_cons_inv h
        subst hits2
        have hsze : sizeOf e < n := by
          simp only [List.cons.sizeOf_spec] at hsz
          omega
        have hszr : sizeOf rest < n := by
          simp only [List.cons.sizeOf_spec] at hsz
          omega
        have h1 := (ih (sizeOf e) hsze).1 flex e e2 (le_refl _) ho
        have h2 := (ih (sizeOf rest) hszr).2.2.2 flex rest r2 (le_refl _) hr
        simp only [augItems, h1, h2, Bool.and_self]

/-- C4: after schema augmentation, every object-typed node reachable
through properties, a dict items value, or allOf/oneOf/anyOf members
carries required and additionalProperties keys and, when it has at least
one property, a visible key (the augmentation invariant augPresent);
required defaults to the empty list when absent, additionalProperties
defaults to the boolean flexible flag of the node's call when absent, and
visible defaults to the list of all property names when absent; the
flexible flag at the schema's top level is the Python truthiness of the
endpoint's request-body content entry, nodes recursed into via properties
or items always use flexible false, and allOf/oneOf/anyOf members inherit
the caller's flexible flag. -/
theorem enhance_schema_spec :
    (∀ (schema : Json) (ep : NormalizedEndpoint) (j2 : Json),
      enhance_schema_with_metadata schema ep = some j2 →
      augPresent j2 = true) ∧
    (∀ (schema : Json) (ep : NormalizedEndpoint)
      (rl : List (String × Json)), ep.requestBody = Json.obj rl →
      enhance_schema_with_metadata schema ep =
        processObject
          (Json.truthy ((Json.objGet rl "content").getD Json.null))
          schema) ∧
    (∀ (flex : Bool) (l l2 : List (String × Json)),
      processObject flex (Json.obj l) = some (Json.obj l2) →
      isObjType l = true →
      (Json.objGet l "required" = none →
        Json.objGet l2 "required" = some (Json.arr [])) ∧
      (Json.objGet l "additionalProperties" = none →
        Json.objGet l2 "additionalProperties" = some (Json.bool flex)) ∧
      (∀ pl, Json.objGet l "properties" = some (Json.obj pl) → pl ≠ [] →
        Json.objGet l "visible" = none →
        Json.objGet l2 "visible" =
          some (Json.arr (pl.map (fun kv => Json.str kv.1))))) ∧
    (∀ (flex : Bool) (pl rest : List (String × Json)),
      processFields flex true false (("properties", Json.obj pl) :: rest) =
        match processProps pl with
        | none => none
        | some pl2 =>
          match processFields flex true false rest with
          | none => none
          | some r2 => some (("properties", Json.obj pl2) :: r2)) ∧
    (∀ (k : String) (v : Json) (rest : List (String × Json)),
      processProps ((k, v) :: rest) =
        match processObject false v with
        | none => none
        | some v2 =>
          match processProps rest with
          | none => none
          | some r2 => some ((k, v2) :: r2)) ∧
    (∀ (flex : Bool) (il rest : List (String × Json)),
      processFields flex false true (("items", Json.obj il) :: rest) =
        match processObject false (Json.obj il) with
        | none => none
        | some v2 =>
          match processFields flex false true rest with
          | none => none
          | some r2 => some (("items", v2) :: r2)) ∧
    (∀ (flex io ia : Bool) (its : List Json)
      (rest : List (String × Json)),
      processFields flex io ia (("allOf", Json.arr its) :: rest) =
        match processItems flex its with
        | none => none
        | some its2 =>
          match processFields flex io ia rest with
          | none => none
          | some r2 => some (("allOf", Json.arr its2) :: r2)) ∧
    (∀ (flex : Bool) (e : Json) (rest : List Json),
      processItems flex (e :: rest) =
        match processObject flex e with
        | none => none
        | some e2 =>
          match processItems flex rest with
          | none => none
          | some r2 => some (e2 :: r2)) := by
  refine ⟨?_, ?_, ?_, ?_, ?_, ?_, ?_, ?_⟩
  · intro schema ep j2 h
    unfold enhance_schema_with_metadata at h
    cases hrb : ep.requestBody with
    | obj rl =>
      rw [hrb] at h
      exact (augAll (sizeOf schema)).1 _ schema j2 (le_refl _) h
    | null => rw [hrb] at h; simp at h
    | bool b => rw [hrb] at h; simp at h
    | num m => rw [hrb] at h; simp at h
    | str s => rw [hrb] at h; simp at h
    | arr es => rw [hrb] at h; simp at h
  · intro schema ep rl hrb
    unfold enhance_schema_with_metadata
    rw [hrb]
  · intro flex l l2 hpo hio
    obtain ⟨l2', hpf, heq⟩ := processObject_obj_inv hpo
    rw [if_pos hio] at heq
    injection heq with he
    subst he
    refine ⟨?_, ?_, ?_⟩
    · intro hreq
      have h2 : Json.objGet l2' "required" = none :=
        processFields_objGet_none hpf _ hreq
      rw [objGet_append_none _ h2, metaAppend_required hreq]
    · intro hap
      have h2 : Json.objGet l2' "additionalProperties" = none :=
        processFields_objGet_none hpf _ hap
      rw [objGet_append_none _ h2, metaAppend_addProps hap]
    · intro pl hp hne hvis
      have h2 : Json.objGet l2' "visible" = none :=
        processFields_objGet_none hpf _ hvis
      rw [objGet_append_none _ h2, metaAppend_visible hvis hp hne]
  · intro flex pl rest
    have hc : (true && ("properties" == "properties")) = true := by decide
    simp only [processFields, hc, eq_self_iff_true, if_true]
    cases hpp : processProps pl with
    | none => rfl
    | some pl2 =>
      cases hr : processFields flex true false rest with
      | none => rfl
      | some r2 => rfl
  · intro k v rest
    rfl
  · intro flex il rest
    rfl
  · intro flex io ia its rest
    have h1 : ∀ b : Bool, (b && ("allOf" == "properties")) = false := by
      decide
    have h2 : ∀ b : Bool, (b && ("allOf" == "items")) = false := by decide
    have h3 : ("allOf" == "allOf" || "allOf" == "oneOf" ||
        "allOf" == "anyOf") = true := by decide
    simp only [processFields, h1, h2, h3, Bool.false_eq_true, if_false,
      eq_self_iff_true, if_true]
    cases hpi : processItems flex its with
    | none => rfl
    | some its2 =>
      cases hr : processFields flex io ia rest with
      | none => rfl
      | some r2 => rfl
  · intro flex e rest
    rfl

/- Concrete inputs for the C4 witness: a two-level object schema and its
   augmented output under an endpoint with an empty request body. -/
def wSchema : Json :=
  Json.obj [("type", Json.str "object"),
    ("properties", Json.obj [("a", Json.obj [("type", Json.str "object")])])]

def wEnhanced : Json :=
  Json.obj [("type", Json.str "object"),
    ("properties", Json.obj [("a", Json.obj [("type", Json.str "object"),
      ("required", Json.arr []),
      ("additionalProperties", Json.bool false)])]),
    ("visible", Json.arr [Json.str "a"]),
    ("required", Json.arr []),
    ("additionalProperties", Json.bool false)]

theorem enhance_schema_spec_witness :
    augPresent wEnhanced = true ∧
    Json.objGet [("type", Json.str "object"), ("required", Json.arr []),
      ("additionalProperties", Json.bool false)] "required" =
        some (Json.arr []) :=
  ⟨enhance_schema_spec.1 wSchema wNorm2 wEnhanced (by decide),
   (enhance_schema_spec.2.2.1 false [("type", Json.str "object")]
      [("type", Json.str "object"), ("required", Json.arr []),
       ("additionalProperties", Json.bool false)]
      (by decide) (by decide)).1 (by decide)⟩
